import Mathlib

/-!
Group-by stage of the query engine (`query/groupby.go`)

A shallow embedding of `addValue`, `formGroups`, `aggregateGroup`,
`aggregateChild` and `groupLess`, and the properties proved about them.

Conventions of the embedding.
* `uint64` identifiers are natural numbers; the only arithmetic on them
  (the running sums of `groupLess`) is reduced modulo `2^64`.
* A Go `map[string]groupElements` is an association list; the order of the list
  is the order in which a `range` loop enumerates the map.
* Pointers are replaced by values: a function that mutates its receiver returns
  the new value.
* Functions of other packages (`types.Less`, `types.Marshal`,
  `convertWithBestEffort`, the aggregator) are parameters.
-/

namespace GroupBy

/-! ## Data model -/

/-- Type tags of `types.Val`; the tags the stage does not name are `other`. -/
inductive TypeID where
  | IntID
  | StringID
  | UidID
  | other (n : Nat)
  deriving DecidableEq, Repr

/-- Payload of a `types.Val` (an `interface{}` in the source): `int64`,
`uint64`, `string`, and the remaining kinds kept as a code. -/
inductive Value where
  | int (i : Int)
  | uid (u : Nat)
  | str (s : String)
  | other (n : Nat)
  deriving DecidableEq, Repr

/-- The struct `types.Val`. -/
structure Val where
  Tid : TypeID
  Value : Value
  deriving DecidableEq, Repr

/-- The struct `groupPair`. -/
structure groupPair where
  key : Val
  attr : String
  deriving DecidableEq, Repr

/-- The struct `groupResult`. -/
structure groupResult where
  keys : List groupPair
  aggregates : List groupPair
  uids : List Nat
  deriving DecidableEq, Repr

/-- The struct `groupElements`; `entities` is the `Uids` field of the list. -/
structure groupElements where
  entities : List Nat
  key : Val
  deriving DecidableEq, Repr

/-- The struct `uniq`; `elements` lists the map in enumeration order. -/
structure uniq where
  elements : List (String × groupElements)
  attr : String
  deriving DecidableEq, Repr

/-- The struct `dedup`. -/
structure dedup where
  groups : List uniq
  deriving DecidableEq, Repr

/-! ## Intersection of sorted lists -/

/-- Modelled from the spec: `algo.IntersectWith` is not part of the source file;
the spec calls it an ordered-list intersection of two lists sorted by identifier.
This is the linear merge: the result lists, in order, the identifiers met in
both arguments. -/
def IntersectWith : List Nat → List Nat → List Nat
  | [], _ => []
  | a :: as, v => IntersectWith.scan a (IntersectWith as) v
where
  /-- The inner loop for a fixed head `a` of the first list: it advances in the
  second list while its head is below `a`. -/
  scan (a : Nat) (k : List Nat → List Nat) : List Nat → List Nat
    | [] => []
    | b :: bs =>
      if a < b then k (b :: bs)
      else if b < a then scan a k bs
      else a :: k bs

/-! ## formGroups -/

/-- The recursion of `formGroups` over the attributes not yet processed
(`dedupMap.groups[l:]` with `l = len(groupVal)`), with the result list threaded
through.  With no attribute left the group is appended; otherwise every entry
of the next bucket extends `groupVal`, narrows `cur` (copy at depth 0,
intersection below) and recurses.  Every `range` over the map of a bucket
follows the order of its list.  Go may enumerate the map of a bucket below the
first in a different order at each of its ranges; this changes the order of the
result list only, and does not arise for an index with one bucket, whose map is
ranged once. -/
def formGroupsFrom : List uniq → List Nat → List groupPair → List groupResult → List groupResult
  | [], cur, groupVal, res =>
    res ++ [{ uids := cur, keys := groupVal, aggregates := [] }]
  | u :: rest, cur, groupVal, res =>
    u.elements.foldl
      (fun res kv =>
        let v := kv.2
        let groupVal1 := groupVal ++ [{ key := v.key, attr := u.attr }]
        let temp := if groupVal.length ≠ 0 then IntersectWith cur v.entities else v.entities
        formGroupsFrom rest temp groupVal1 res)
      res

/-- The method `formGroups`: `res` is `res.group` before the call and the result is
`res.group` after it.  `none` is the index-out-of-range panic of
`dedupMap.groups[l]` when `groupVal` is longer than the index. -/
def formGroups (dedupMap : dedup) (cur : List Nat) (groupVal : List groupPair)
    (res : List groupResult) : Option (List groupResult) :=
  if groupVal.length ≤ dedupMap.groups.length then
    some (formGroupsFrom (dedupMap.groups.drop groupVal.length) cur groupVal res)
  else none

/-! ## addValue -/

/-- The search loop of `addValue`, `for i := len(d.groups) - 1; i >= 0; i--`:
the argument is `i + 1`; the result is the index found, `none` standing for
`idx == -1`. -/
def addValue.find (groups : List uniq) (attr : String) : Nat → Option Nat
  | 0 => none
  | i + 1 =>
    match groups[i]? with
    | some it => if attr = it.attr then some i else addValue.find groups attr i
    | none => addValue.find groups attr i

/-- The end of `addValue` on the map of one bucket: the entry of `strKey` is
created when absent (with `value` as its key and no entity), then `uid` is
appended to the entities of the entry of `strKey`.  A new entry is enumerated
last; when a list repeats a key (no Go map does) the first one is the entry. -/
def addValue.put (strKey : String) (value : Val) (uid : Nat) :
    List (String × groupElements) → List (String × groupElements)
  | [] => [(strKey, { key := value, entities := [uid] })]
  | kv :: rest =>
    if kv.1 = strKey then (kv.1, { kv.2 with entities := kv.2.entities ++ [uid] }) :: rest
    else kv :: addValue.put strKey value uid rest

/-- The method `addValue`.  `Marshal value` is the string that
`types.Marshal(value, &valC)` leaves in `valC`, `none` when it returns an error. -/
def addValue (Marshal : Val → Option String) (d : dedup) (attr : String) (value : Val)
    (uid : Nat) : dedup :=
  let found := addValue.find d.groups attr d.groups.length
  let groups := if found = none then d.groups ++ [{ attr := attr, elements := [] }] else d.groups
  let idx := found.getD (groups.length - 1)
  let strKey :=
    if value.Tid = TypeID.UidID then some (Nat.repr uid) else Marshal value
  match strKey with
  | none => { groups := groups }
  | some strKey =>
    match groups[idx]? with
    | some u =>
      { groups := groups.set idx { u with elements := addValue.put strKey value uid u.elements } }
    | none => { groups := groups }

/-! ## Aggregation -/

/-- The field `Params` of a `SubGraph`, with the two flags the stage reads. -/
structure params where
  ignoreResult : Bool
  DoCount : Bool
  deriving DecidableEq, Repr

/-- The fields of a child `SubGraph` the stage reads; `TV` is the type of the
stored values (`*taskp.Value`), `SrcUIDs` and `DestUIDs` are the `Uids` of the
lists. -/
structure SubGraph (TV : Type) where
  Attr : String
  Params : params
  SrcFunc : List String
  SrcUIDs : List Nat
  DestUIDs : List Nat
  uidMatrix : List (List Nat)
  values : List TV

/-- The struct `aggregator` of the package with its two methods, as the stage uses
it: `init name` is `aggregator\x7bname: name\x7d`. -/
structure aggregator (A : Type) where
  init : String → A
  Apply : A → Val → A
  Value : A → Except String Val

/-- The loop of `sort.Search`: `i, j` are the bounds and the first argument bounds
the number of iterations left (`j - i` suffice, since every iteration shrinks
the interval). -/
def Search.loop (f : Nat → Bool) : Nat → Nat → Nat → Nat
  | 0, i, _ => i
  | fuel + 1, i, j =>
    if i < j then
      let h := (i + j) / 2
      if !f h then Search.loop f fuel (h + 1) j else Search.loop f fuel i h
    else i

/-- The library function `sort.Search(n, f)`. -/
def Search (n : Nat) (f : Nat → Bool) : Nat :=
  Search.loop f n 0 n

/-- One iteration of the loop of `aggregateGroup` on the accumulator `ag`;
`none` is the index-out-of-range panic of `child.values[idx]`. -/
def aggregateGroup.step {TV A : Type} (ops : aggregator A)
    (convertWithBestEffort : TV → String → Except String Val) (child : SubGraph TV)
    (ag : A) (uid : Nat) : Option A :=
  let idx := Search child.SrcUIDs.length (fun i => decide (child.SrcUIDs.getD i 0 ≥ uid))
  if idx = child.SrcUIDs.length ∨ child.SrcUIDs.getD idx 0 ≠ uid then some ag
  else
    match child.values[idx]? with
    | none => none
    | some v =>
      match convertWithBestEffort v child.Attr with
      | .error _ => some ag
      | .ok val => some (ops.Apply ag val)

/-- The function `aggregateGroup`; `none` is a panic (`child.SrcFunc[0]` or
`child.values[idx]` out of range), otherwise the pair `(types.Val, error)` that
`ag.Value()` returns. -/
def aggregateGroup {TV A : Type} (ops : aggregator A)
    (convertWithBestEffort : TV → String → Except String Val)
    (grp : groupResult) (child : SubGraph TV) : Option (Except String Val) :=
  match child.SrcFunc with
  | [] => none
  | name :: _ =>
    (grp.uids.foldlM (aggregateGroup.step ops convertWithBestEffort child) (ops.init name)).map
      ops.Value

/-- The method `aggregateChild`: the group after the call, `none` when
`aggregateGroup` panics. -/
def aggregateChild {TV A : Type} (isAggregatorFn : String → Bool) (ops : aggregator A)
    (convertWithBestEffort : TV → String → Except String Val)
    (grp : groupResult) (child : SubGraph TV) : Option groupResult :=
  if child.Params.DoCount then
    some { grp with
      aggregates := grp.aggregates ++
        [{ attr := "count", key := { Tid := TypeID.IntID, Value := Value.int grp.uids.length } }] }
  else
    match child.SrcFunc with
    | [] => some grp
    | fn :: _ =>
      if isAggregatorFn fn then
        let fieldName := fn ++ "(" ++ child.Attr ++ ")"
        match aggregateGroup ops convertWithBestEffort grp child with
        | none => none
        | some (.error _) => some grp
        | some (.ok finalVal) =>
          some { grp with aggregates := grp.aggregates ++ [{ attr := fieldName, key := finalVal }] }
      else some grp

/-! ## groupLess -/

/-- The body of the two value loops of `groupLess` at one position:
`some r` is `return r`, `none` goes on to the next position.  `Less x y` is the
pair `(bool, error)` of `types.Less(x, y)`, the error `none` being `nil`; the
error of the second call is discarded as in the source. -/
def groupLess.step (Less : Val → Val → Bool × Option String) (x y : Val) : Option Bool :=
  if (Less x y).2 = none then
    if (Less x y).1 then some true
    else if (Less y x).1 then some false
    else none
  else none

/-- The loops `for i := range a.keys` and `for i := range a.aggregates` of
`groupLess`; they run when both lists have the same length. -/
def groupLess.values (Less : Val → Val → Bool × Option String) :
    List groupPair → List groupPair → Option Bool
  | x :: xs, y :: ys =>
    match groupLess.step Less x.key y.key with
    | some r => some r
    | none => groupLess.values Less xs ys
  | _, _ => none

/-- The loop `for i := range a.uids` of `groupLess` with the running sums
(`uint64`), followed by the comparison of the sums; `none` is
`x.Fatalf("wrong groups")`. -/
def groupLess.uids : List Nat → List Nat → Nat → Nat → Option Bool
  | x :: xs, y :: ys, asum, bsum =>
    let asum1 := (asum + x) % 2 ^ 64
    let bsum1 := (bsum + y) % 2 ^ 64
    if x < y then some true
    else if x > y then some false
    else groupLess.uids xs ys asum1 bsum1
  | _, _, asum, bsum =>
    if asum < bsum then some true
    else if asum ≠ bsum then some false
    else none

/-- The function `groupLess`; `none` is the fatal error `wrong groups`, which ends
the process. -/
def groupLess (Less : Val → Val → Bool × Option String) (a b : groupResult) : Option Bool :=
  if a.keys.length < b.keys.length then some true
  else if a.keys.length ≠ b.keys.length then some false
  else if a.aggregates.length < b.aggregates.length then some true
  else if a.aggregates.length ≠ b.aggregates.length then some false
  else if a.uids.length < b.uids.length then some true
  else if a.uids.length ≠ b.uids.length then some false
  else
    match groupLess.values Less a.keys b.keys with
    | some r => some r
    | none =>
      match groupLess.values Less a.aggregates b.aggregates with
      | some r => some r
      | none => groupLess.uids a.uids b.uids 0 0

/-! ## processGroupBy -/

/-- The inner loop of the identifier branch of `processGroupBy`,
`for _, uid := range ul.Uids`: one `addValue` per related identifier, all with
the parent `srcUid` as entity. -/
def processGroupBy.addUids (Marshal : Val → Option String) (attr : String) (srcUid : Nat)
    (ul : List Nat) (d : dedup) : dedup :=
  ul.foldl
    (fun d uid => addValue Marshal d attr { Tid := TypeID.UidID, Value := Value.uid uid } srcUid)
    d

/-- The identifier branch of `processGroupBy`, `for i := 0; i < len(child.uidMatrix); i++`,
on the rows of `uidMatrix` not yet visited and the source identifiers from the
same position on; `none` is the index-out-of-range panic of
`child.SrcUIDs.Uids[i]`. -/
def processGroupBy.uidNode (Marshal : Val → Option String) (attr : String) :
    List (List Nat) → List Nat → dedup → Option dedup
  | [], _, d => some d
  | _ :: _, [], _ => none
  | ul :: rows, srcUid :: srcs, d =>
    processGroupBy.uidNode Marshal attr rows srcs (processGroupBy.addUids Marshal attr srcUid ul d)

/-- The value branch of `processGroupBy`, `for i, v := range child.values`, on the
values not yet visited and the source identifiers from the same position on;
a value that `convertTo` rejects is skipped; `none` is the index-out-of-range
panic of `child.SrcUIDs.Uids[i]`. -/
def processGroupBy.valueNode {TV : Type} (convertTo : TV → Except String Val)
    (Marshal : Val → Option String) (attr : String) :
    List TV → List Nat → dedup → Option dedup
  | [], _, d => some d
  | _ :: _, [], _ => none
  | v :: vs, srcUid :: srcs, d =>
    match convertTo v with
    | .error _ => processGroupBy.valueNode convertTo Marshal attr vs srcs d
    | .ok val =>
      processGroupBy.valueNode convertTo Marshal attr vs srcs (addValue Marshal d attr val srcUid)

/-- The body of the first loop of `processGroupBy` for one child: a child not
flagged `ignoreResult` is skipped, a child with destination identifiers is an
identifier node, the others are value nodes. -/
def processGroupBy.child {TV : Type} (convertTo : TV → Except String Val)
    (Marshal : Val → Option String) (d : dedup) (child : SubGraph TV) : Option dedup :=
  if !child.Params.ignoreResult then some d
  else if child.DestUIDs.length ≠ 0 then
    processGroupBy.uidNode Marshal child.Attr child.uidMatrix child.SrcUIDs d
  else
    processGroupBy.valueNode convertTo Marshal child.Attr child.values child.SrcUIDs d

/-- The first loop of `processGroupBy` over `sg.Children`: the index `dedupMap`
built from the children flagged `ignoreResult` (the grouping children). -/
def processGroupBy.index {TV : Type} (convertTo : TV → Except String Val)
    (Marshal : Val → Option String) (Children : List (SubGraph TV)) : Option dedup :=
  Children.foldlM (processGroupBy.child convertTo Marshal) { groups := [] }

/-- The inner loop of the aggregation phase of `processGroupBy` for one group:
every child not flagged `ignoreResult` is passed to `aggregateChild`. -/
def processGroupBy.aggregate {TV A : Type} (isAggregatorFn : String → Bool)
    (ops : aggregator A) (convertWithBestEffort : TV → String → Except String Val)
    (Children : List (SubGraph TV)) (grp : groupResult) : Option groupResult :=
  Children.foldlM
    (fun grp child =>
      if child.Params.ignoreResult then some grp
      else aggregateChild isAggregatorFn ops convertWithBestEffort grp child)
    grp

/-- The aggregation phase of `processGroupBy`, `for i := range res.group`. -/
def processGroupBy.aggregateAll {TV A : Type} (isAggregatorFn : String → Bool)
    (ops : aggregator A) (convertWithBestEffort : TV → String → Except String Val)
    (Children : List (SubGraph TV)) : List groupResult → Option (List groupResult)
  | [] => some []
  | grp :: rest =>
    match processGroupBy.aggregate isAggregatorFn ops convertWithBestEffort Children grp with
    | none => none
    | some g =>
      match processGroupBy.aggregateAll isAggregatorFn ops convertWithBestEffort Children rest with
      | none => none
      | some gs => some (g :: gs)

/-- The function `processGroupBy` up to the call of `sort.Slice`: the groups
`res.group` formed from the index and aggregated, in the order of formation;
`none` is a panic. -/
def processGroupBy.groups {TV A : Type} (convertTo : TV → Except String Val)
    (Marshal : Val → Option String) (isAggregatorFn : String → Bool) (ops : aggregator A)
    (convertWithBestEffort : TV → String → Except String Val)
    (Children : List (SubGraph TV)) : Option (List groupResult) :=
  match processGroupBy.index convertTo Marshal Children with
  | none => none
  | some dedupMap =>
    match formGroups dedupMap [] [] [] with
    | none => none
    | some res =>
      processGroupBy.aggregateAll isAggregatorFn ops convertWithBestEffort Children res

/-! ## The sort of the groups -/

/-- The inner loop of the library function `insertionSort_func`,
`for j := i; j > a && data.Less(j, j-1); j-- { data.Swap(j, j-1) }`: the element
`x` at position `i` moves left past every neighbour it is less than.  The
second argument is the part of the slice before `x`, nearest neighbour first;
`none` is a comparison that ends the process. -/
def insertionSort_func.insert (less : groupResult → groupResult → Option Bool)
    (x : groupResult) : List groupResult → Option (List groupResult)
  | [] => some [x]
  | y :: before =>
    match less x y with
    | none => none
    | some false => some (x :: y :: before)
    | some true =>
      match insertionSort_func.insert less x before with
      | none => none
      | some l => some (y :: l)

/-- The library function `insertionSort_func` on the whole slice,
`for i := a + 1; i < b; i++`.  It is what `sort.Slice` runs on a slice of at most
six elements: the quicksort loop is for more than twelve elements and the
pass that precedes the insertion sort compares elements six positions
apart. -/
def insertionSort_func (less : groupResult → groupResult → Option Bool)
    (data : List groupResult) : Option (List groupResult) :=
  (data.foldlM (fun before x => insertionSort_func.insert less x before) []).map List.reverse

/-! ## Reference notions used in the statements -/

/-- Every way to take one entry from each bucket, in the order in which the
nested loops of `formGroups` visit them. -/
def choices : List uniq → List (List groupElements)
  | [] => [[]]
  | u :: rest => u.elements.flatMap (fun kv => (choices rest).map (fun es => kv.2 :: es))

/-- The key pairs that a choice of entries supplies: the attribute of each
bucket with the representative value of the entry taken from it. -/
def keysOf (us : List uniq) (es : List groupElements) : List groupPair :=
  List.zipWith (fun u e => { key := e.key, attr := u.attr }) us es

/-- The running intersection of `cur` with the member lists of the entries. -/
def narrow (cur : List Nat) (es : List groupElements) : List Nat :=
  es.foldl (fun c e => IntersectWith c e.entities) cur

/-- The member list computed for a choice of entries: the list of the first
entry narrowed by the others. -/
def membersOf : List groupElements → List Nat
  | [] => []
  | e :: es => narrow e.entities es

/-- The group that a choice of entries stands for. -/
def groupOf (us : List uniq) (es : List groupElements) : groupResult :=
  { keys := keysOf us es, uids := membersOf es, aggregates := [] }

/-- An identifier is common to the member lists of all the entries. -/
def common (es : List groupElements) (x : Nat) : Prop :=
  ∀ e ∈ es, x ∈ e.entities

/-- Every member list of the index is sorted ascending. -/
def sortedIndex (us : List uniq) : Prop :=
  ∀ u ∈ us, ∀ kv ∈ u.elements, List.Sorted (· ≤ ·) kv.2.entities

/-- Two buckets are the same map enumerated in two orders. -/
def sameBucket (u v : uniq) : Prop :=
  u.attr = v.attr ∧ u.elements.Perm v.elements

/-- The index after a sequence of `addValue` calls, each given as
`(attr, value, uid)`. -/
def addValues (Marshal : Val → Option String) (d : dedup) (calls : List (String × Val × Nat)) :
    dedup :=
  calls.foldl (fun d c => addValue Marshal d c.1 c.2.1 c.2.2) d

instance (es : List groupElements) (x : Nat) : Decidable (common es x) := by
  unfold common
  infer_instance

instance (us : List uniq) : Decidable (sortedIndex us) := by
  unfold sortedIndex
  infer_instance

/-- The ordering never answers `true` in both directions without an error. -/
def LessAsymm (Less : Val → Val → Bool × Option String) : Prop :=
  ∀ x y, (Less x y).2 = none → (Less y x).2 = none → (Less x y).1 = true → (Less y x).1 = false

/-- The ordering reports an error for `(x, y)` exactly when it does for `(y, x)`. -/
def LessErrSymm (Less : Val → Val → Bool × Option String) : Prop :=
  ∀ x y, (Less x y).2 = none ↔ (Less y x).2 = none

/-- Two answers of a comparison taken in the two directions agree: both are the
fatal error (or both undecided, inside the loops), or one is `true` and the other
`false`. -/
def Mirror (p q : Option Bool) : Prop :=
  (p = none ∧ q = none) ∨ (p = some true ∧ q = some false) ∨ (p = some false ∧ q = some true)

/-- Two comparisons in sequence: the first one that decides gives the answer. -/
def andThen (p q : Option Bool) : Option Bool :=
  match p with
  | some r => some r
  | none => q

/-- The three length tests at the head of `groupLess`, for one pair of lengths. -/
def cmpLen (m n : Nat) : Option Bool :=
  if m < n then some true else if m ≠ n then some false else none

/-- What three answers `x ? y`, `y ? z`, `x ? z` of a comparison must satisfy for it
to be transitive: an undecided pair can be replaced on either side, and two
`true` compose. -/
def Tri (pxy pyz pxz : Option Bool) : Prop :=
  (pxy = none → pxz = pyz) ∧ (pyz = none → pxz = pxy) ∧
    (pxy = some true → pyz = some true → pxz = some true)

/-- The ordering is a strict total order on the values of each supported type
and reports an error exactly for values of different types or of an unsupported
type. -/
def TypedStrictOrder (supported : TypeID → Bool) (Less : Val → Val → Bool × Option String) :
    Prop :=
  (∀ x y, (Less x y).2 = none ↔ (x.Tid = y.Tid ∧ supported x.Tid = true)) ∧
  (∀ x, (Less x x).2 = none → (Less x x).1 = false) ∧
  (∀ x y z, (Less x y).2 = none → (Less y z).2 = none →
    (Less x y).1 = true → (Less y z).1 = true → (Less x z).1 = true) ∧
  (∀ x y, (Less x y).2 = none → x ≠ y → (Less x y).1 = true ∨ (Less y x).1 = true)

/-- The values of two lists of pairs have the same type position by position. -/
def sameTypes (xs ys : List groupPair) : Prop :=
  ∀ p ∈ xs.zip ys, p.1.key.Tid = p.2.key.Tid

instance (xs ys : List groupPair) : Decidable (sameTypes xs ys) := by
  unfold sameTypes
  infer_instance

/-! ## The reference comparator of the specification -/

/-- The outcome of one criterion of the comparator. -/
inductive Verdict where
  | aFirst
  | bFirst
  | tie
  deriving DecidableEq, Repr

/-- Criteria 1 to 3: the smaller count sorts first. -/
def byCount (m n : Nat) : Verdict :=
  if m < n then Verdict.aFirst else if n < m then Verdict.bFirst else Verdict.tie

/-- The external ordering establishes `x < y`: it answers `true` without error. -/
def established (Less : Val → Val → Bool × Option String) (x y : Val) : Bool :=
  (Less x y).1 && (Less x y).2.isNone

/-- Criteria 4 and 5: the first position at which the external ordering
establishes `a < b` (a first) or `b < a` (b first); the positions where neither
holds are skipped. -/
def byValues (Less : Val → Val → Bool × Option String) :
    List groupPair → List groupPair → Verdict
  | x :: xs, y :: ys =>
    if established Less x.key y.key then Verdict.aFirst
    else if established Less y.key x.key then Verdict.bFirst
    else byValues Less xs ys
  | _, _ => Verdict.tie

/-- Criterion 6: the lexicographic comparison of two sequences of identifiers. -/
def byUids : List Nat → List Nat → Verdict
  | x :: xs, y :: ys =>
    if x < y then Verdict.aFirst else if y < x then Verdict.bFirst else byUids xs ys
  | [], _ :: _ => Verdict.aFirst
  | _ :: _, [] => Verdict.bFirst
  | [], [] => Verdict.tie

/-- The first criterion that differs decides. -/
def firstDeciding : List Verdict → Verdict
  | [] => Verdict.tie
  | Verdict.tie :: rest => firstDeciding rest
  | v :: _ => v

/-- The reference comparator: criteria 1 to 6 in this order; `some true` when a
sorts first, `some false` when b sorts first, `none` when no criterion differs. -/
def refLess (Less : Val → Val → Bool × Option String) (a b : groupResult) : Option Bool :=
  match firstDeciding
      [byCount a.keys.length b.keys.length,
       byCount a.aggregates.length b.aggregates.length,
       byCount a.uids.length b.uids.length,
       byValues Less a.keys b.keys,
       byValues Less a.aggregates b.aggregates,
       byUids a.uids b.uids] with
  | Verdict.aFirst => some true
  | Verdict.bFirst => some false
  | Verdict.tie => none

/-- The answer that a verdict stands for. -/
def Verdict.answer : Verdict → Option Bool
  | Verdict.aFirst => some true
  | Verdict.bFirst => some false
  | Verdict.tie => none

/-! ## Reference notions for the aggregation -/

/-- The source value of an identifier: the value at the position of its first
occurrence in the list of source identifiers, `none` when it does not occur. -/
def sourceValue {TV : Type} (uid : Nat) : List Nat → List TV → Option TV
  | s :: ss, v :: vs => if s = uid then some v else sourceValue uid ss vs
  | _, _ => none

/-- The coerced source value of a member, when the member occurs in the source
list and the coercion succeeds. -/
def coerced {TV : Type} (convertWithBestEffort : TV → String → Except String Val)
    (child : SubGraph TV) (uid : Nat) : Option Val :=
  match sourceValue uid child.SrcUIDs child.values with
  | none => none
  | some v =>
    match convertWithBestEffort v child.Attr with
    | .error _ => none
    | .ok val => some val

/-- The values that the accumulator must be fed for a group, in member order. -/
def fedValues {TV : Type} (convertWithBestEffort : TV → String → Except String Val)
    (grp : groupResult) (child : SubGraph TV) : List Val :=
  grp.uids.filterMap (coerced convertWithBestEffort child)

/-! ## Sample inputs for the examples -/

/-- The rank of the kind of a payload, for `Value.lt`. -/
def Value.rank : Value → Nat
  | Value.int _ => 0
  | Value.uid _ => 1
  | Value.str _ => 2
  | Value.other _ => 3

/-- A strict total order on payloads: numbers by size, strings character by
character, payloads of different kinds by the rank of the kind. -/
def Value.lt : Value → Value → Bool
  | Value.int i, Value.int j => decide (i < j)
  | Value.uid u, Value.uid v => decide (u < v)
  | Value.str s, Value.str t => decide (s.data < t.data)
  | Value.other m, Value.other n => decide (m < n)
  | x, y => decide (x.rank < y.rank)

/-- An ordering with the interface of `types.Less` for the examples: values of
different types and values of a type outside integer, string and identifier are
an error, the others are compared by payload. -/
def sampleLess (x y : Val) : Bool × Option String :=
  if x.Tid ≠ y.Tid then (false, some "Arguments of different type can not be compared.")
  else
    match x.Tid with
    | TypeID.other _ => (false, some "Compare not supported for type")
    | _ => (Value.lt x.Value y.Value, none)


/-- The types that `sampleLess` compares. -/
def sampleSupported : TypeID → Bool
  | TypeID.other _ => false
  | _ => true

/-- An aggregator for the examples: the sum of the integer values applied, an
error when none was. -/
def sumAggregator : aggregator (String × Option Int) where
  init := fun name => (name, none)
  Apply := fun ag v =>
    match v.Value with
    | Value.int i => (ag.1, some (ag.2.getD 0 + i))
    | _ => ag
  Value := fun ag =>
    match ag.2 with
    | some total => .ok { Tid := TypeID.IntID, Value := Value.int total }
    | none => .error "no value"

/-- A coercion for the examples, on stored values that are already `Val`:
integers pass, the rest fails. -/
def sampleConvert (v : Val) (_attr : String) : Except String Val :=
  match v.Value with
  | Value.int _ => .ok v
  | _ => .error "not a number"

/-- The names of the aggregation functions, for the examples. -/
def sampleIsAggregatorFn (f : String) : Bool :=
  decide (f ∈ ["min", "max", "sum", "avg"])

/-- A string value. -/
def strVal (s : String) : Val := { Tid := TypeID.StringID, Value := Value.str s }

/-- An identifier value. -/
def uidVal (u : Nat) : Val := { Tid := TypeID.UidID, Value := Value.uid u }

/-- An integer value. -/
def intVal (i : Int) : Val := { Tid := TypeID.IntID, Value := Value.int i }

/-- A marshaling function for the examples: strings marshal to themselves,
numbers to their decimal form, the other payloads fail. -/
def sampleMarshal (v : Val) : Option String :=
  match v.Value with
  | Value.str s => some s
  | Value.uid u => some (Nat.repr u)
  | Value.int i => some (if i < 0 then "-" ++ Nat.repr i.natAbs else Nat.repr i.natAbs)
  | Value.other _ => none

/-- An aggregation child `sum(weight)` whose source list holds the entities 1, 3
and 4; the value of entity 3 is a string. -/
def weightChild : SubGraph Val :=
  { Attr := "weight", Params := { ignoreResult := false, DoCount := false },
    SrcFunc := ["sum"], SrcUIDs := [1, 3, 4], DestUIDs := [], uidMatrix := [],
    values := [intVal 10, strVal "heavy", intVal 5] }

/-- A group with the members 1, 2, 3 and 4. -/
def fourGroup : groupResult :=
  { keys := [{ key := strVal "red", attr := "color" }], aggregates := [], uids := [1, 2, 3, 4] }

/-- The index of the two-attribute example: entity 5 is (red, S) and entity 6
is (red, M). -/
def redIndex : dedup :=
  addValues sampleMarshal { groups := [] }
    [("color", strVal "red", 5), ("size", strVal "S", 5),
     ("color", strVal "red", 6), ("size", strVal "M", 6)]

/-- An index with two colours and two sizes: entity 1 is (red, S) and entity 2
is (blue, M). -/
def crossIndex : dedup :=
  addValues sampleMarshal { groups := [] }
    [("color", strVal "red", 1), ("size", strVal "S", 1),
     ("color", strVal "blue", 2), ("size", strVal "M", 2)]

/-- The index of two identifier-valued attributes: entities 1 and 2 both refer to
entity 10 by `friend` and to entity 20 by `boss`. -/
def tieIndex : dedup :=
  addValues sampleMarshal { groups := [] }
    [("friend", uidVal 10, 1), ("friend", uidVal 10, 2),
     ("boss", uidVal 20, 1), ("boss", uidVal 20, 2)]

/-- A conversion of stored values for the examples, on stored values that are
already `Val`: every value converts to itself. -/
def sampleConvertTo (v : Val) : Except String Val := .ok v

/-- An index whose second bucket has no entry. -/
def hollowIndex : dedup :=
  { groups := [{ elements := [("red", { entities := [1], key := strVal "red" })], attr := "color" },
               { elements := [], attr := "size" }] }

/-- No position of the two lists is decided by the external ordering, in either
direction. -/
def undecided (Less : Val → Val → Bool × Option String) (xs ys : List groupPair) : Prop :=
  ∀ p ∈ xs.zip ys,
    established Less p.1.key p.2.key = false ∧ established Less p.2.key p.1.key = false

instance (Less : Val → Val → Bool × Option String) (xs ys : List groupPair) :
    Decidable (undecided Less xs ys) := by
  unfold undecided
  infer_instance

/-- The running sum of identifiers that `groupLess` holds when its identifier
loop has run to the end (`uint64` arithmetic). -/
def runningSum (xs : List Nat) : Nat :=
  xs.foldl (fun s x => (s + x) % 2 ^ 64) 0

/-! ## Reference notions for the index -/

/-- The attribute names of an index, in the order of its buckets. -/
def attrsOf (d : dedup) : List String :=
  d.groups.map (fun u => u.attr)

/-- The canonical key of a call of `addValue`: the decimal string of the entity
for an identifier value, the marshaled value otherwise, `none` when the
marshaling fails. -/
def keyOf (Marshal : Val → Option String) (value : Val) (uid : Nat) : Option String :=
  if value.Tid = TypeID.UidID then some (Nat.repr uid) else Marshal value

/-- The distinct elements of a list in the order of their first occurrence. -/
def firstSeen {α : Type} [DecidableEq α] : List α → List α
  | [] => []
  | a :: l => a :: (firstSeen l).filter (fun x => decide (x ≠ a))

/-- The entry of a key in the map of a bucket. -/
def entryOf (elements : List (String × groupElements)) (k : String) : Option groupElements :=
  match elements with
  | [] => none
  | kv :: rest => if kv.1 = k then some kv.2 else entryOf rest k

/-- The keys of the map of a bucket, in enumeration order. -/
def keysIn (elements : List (String × groupElements)) : List String :=
  elements.map (fun kv => kv.1)

/-- The position of the bucket that `addValue` addresses for an attribute: the
last bucket with this name, or the end of the index when there is none (where
the new bucket is appended). -/
def bucketAt (d : dedup) (attr : String) : Nat :=
  (addValue.find d.groups attr d.groups.length).getD d.groups.length

/-- The map of the bucket at a position of the index, empty past the end. -/
def elementsAt (d : dedup) (i : Nat) : List (String × groupElements) :=
  match d.groups[i]? with
  | some u => u.elements
  | none => []

/-- The number that a list of decimal digits denotes, continuing from `acc`. -/
def decodeDigits (acc : Nat) (cs : List Char) : Nat :=
  cs.foldl (fun a c => a * 10 + (c.toNat - 48)) acc

/-- A value of a type that `sampleMarshal` cannot marshal. -/
def badVal : Val := { Tid := TypeID.other 7, Value := Value.other 0 }

/-- The index with the single attribute color, where entity 1 is red. -/
def colorIndex : dedup :=
  addValues sampleMarshal { groups := [] } [("color", strVal "red", 1)]

/-- The map of a bucket after the calls of a list have been applied to it, a
call whose marshaling fails leaving it as it is. -/
def putAll (Marshal : Val → Option String) (calls : List (String × Val × Nat))
    (E : List (String × groupElements)) : List (String × groupElements) :=
  calls.foldl
    (fun E c =>
      match keyOf Marshal c.2.1 c.2.2 with
      | some k => addValue.put k c.2.1 c.2.2 E
      | none => E)
    E

/-- The `addValue` calls of the identifier branch of `processGroupBy`, in order:
for every row of the matrix with its parent, one call per related identifier. -/
def callsUid (attr : String) : List (List Nat) → List Nat → List (String × Val × Nat)
  | ul :: rows, srcUid :: srcs =>
    ul.map (fun uid => (attr, { Tid := TypeID.UidID, Value := Value.uid uid }, srcUid)) ++
      callsUid attr rows srcs
  | _, _ => []

/-- The parents that have at least one related identifier, in order. -/
def parentsWithRelated : List (List Nat) → List Nat → List Nat
  | ul :: rows, srcUid :: srcs =>
    if ul = [] then parentsWithRelated rows srcs else srcUid :: parentsWithRelated rows srcs
  | _, _ => []

/-- A grouping child by the identifier-valued attribute friend: the parents 1 and
2 both refer to entity 10. -/
def friendChild : SubGraph Val :=
  { Attr := "friend", Params := { ignoreResult := true, DoCount := false },
    SrcFunc := [], SrcUIDs := [1, 2], DestUIDs := [10], uidMatrix := [[10], [10]],
    values := [] }

/-- A grouping child by the identifier-valued attribute friend: the parent 1
refers to the entities 10 and 11. -/
def twoFriendsChild : SubGraph Val :=
  { Attr := "friend", Params := { ignoreResult := true, DoCount := false },
    SrcFunc := [], SrcUIDs := [1], DestUIDs := [10, 11], uidMatrix := [[10, 11]],
    values := [] }

/-- The `addValue` calls of the value branch of `processGroupBy`, in order: one
call per value that `convertTo` accepts, with its parent. -/
def callsValue {TV : Type} (convertTo : TV → Except String Val) (attr : String) :
    List TV → List Nat → List (String × Val × Nat)
  | v :: vs, srcUid :: srcs =>
    match convertTo v with
    | .error _ => callsValue convertTo attr vs srcs
    | .ok val => (attr, val, srcUid) :: callsValue convertTo attr vs srcs
  | _, _ => []

/-- The `addValue` calls that `processGroupBy` makes for one grouping child. -/
def callsOf {TV : Type} (convertTo : TV → Except String Val) (child : SubGraph TV) :
    List (String × Val × Nat) :=
  if child.DestUIDs.length ≠ 0 then callsUid child.Attr child.uidMatrix child.SrcUIDs
  else callsValue convertTo child.Attr child.values child.SrcUIDs

/-- The lists of a grouping child are parallel: there is a parent for every row
of an identifier node and for every value of a value node. -/
def parallel {TV : Type} (child : SubGraph TV) : Prop :=
  if child.DestUIDs.length ≠ 0 then child.uidMatrix.length ≤ child.SrcUIDs.length
  else child.values.length ≤ child.SrcUIDs.length

instance {TV : Type} (child : SubGraph TV) : Decidable (parallel child) := by
  unfold parallel
  infer_instance

/-- Every member list of the index is without repetition and holds only
entities recorded in `done` for the attribute of its bucket. -/
def cleanIndex (d : dedup) (done : List (String × Nat)) : Prop :=
  ∀ u ∈ d.groups, ∀ kv ∈ u.elements,
    kv.2.entities.Nodup ∧ ∀ x ∈ kv.2.entities, (u.attr, x) ∈ done

/-- A grouping child by the value attribute color: entity 1 is red, entity 2 is
blue. -/
def colorChild : SubGraph Val :=
  { Attr := "color", Params := { ignoreResult := true, DoCount := false },
    SrcFunc := [], SrcUIDs := [1, 2], DestUIDs := [], uidMatrix := [],
    values := [strVal "red", strVal "blue"] }

/-- A grouping child by the value attribute x whose parents 1, 2 and 3 hold an
integer, a string and an integer. -/
def mixedChild : SubGraph Val :=
  { Attr := "x", Params := { ignoreResult := true, DoCount := false },
    SrcFunc := [], SrcUIDs := [1, 2, 3], DestUIDs := [], uidMatrix := [],
    values := [intVal 5, strVal "q", intVal 1] }

/-- The index of `mixedChild`, its map enumerated in the order 5, q, 1. -/
def mixedIndex : dedup :=
  { groups := [{ attr := "x",
                 elements := [("5", { key := intVal 5, entities := [1] }),
                              ("q", { key := strVal "q", entities := [2] }),
                              ("1", { key := intVal 1, entities := [3] })] }] }

/-- The index of `mixedChild`, its map enumerated in the order 1, 5, q. -/
def mixedIndexAgain : dedup :=
  { groups := [{ attr := "x",
                 elements := [("1", { key := intVal 1, entities := [3] }),
                              ("5", { key := intVal 5, entities := [1] }),
                              ("q", { key := strVal "q", entities := [2] })] }] }

/-! ## Properties of the intersection -/

theorem IntersectWith_nil_right (u : List Nat) : IntersectWith u [] = [] := by
  cases u <;> simp [IntersectWith, IntersectWith.scan]

theorem IntersectWith_cons_cons (a b : Nat) (as bs : List Nat) :
    IntersectWith (a :: as) (b :: bs) =
      if a < b then IntersectWith as (b :: bs)
      else if b < a then IntersectWith (a :: as) bs
      else a :: IntersectWith as bs := by
  simp [IntersectWith, IntersectWith.scan]

theorem IntersectWith_sublist (u v : List Nat) : (IntersectWith u v).Sublist u := by
  induction u generalizing v with
  | nil => simp [IntersectWith]
  | cons a as iha =>
    induction v with
    | nil => simp [IntersectWith_nil_right]
    | cons b bs ihb =>
      rw [IntersectWith_cons_cons]
      split
      · exact (iha _).trans (List.sublist_cons_self a as)
      · split
        · exact ihb
        · exact (iha bs).cons₂ a

theorem IntersectWith_sorted {u : List Nat} (v : List Nat) (hu : List.Sorted (· ≤ ·) u) :
    List.Sorted (· ≤ ·) (IntersectWith u v) :=
  List.Pairwise.sublist (IntersectWith_sublist u v) hu

theorem mem_IntersectWith {u v : List Nat} (hu : List.Sorted (· ≤ ·) u)
    (hv : List.Sorted (· ≤ ·) v) (x : Nat) :
    x ∈ IntersectWith u v ↔ x ∈ u ∧ x ∈ v := by
  induction u generalizing v with
  | nil => simp [IntersectWith]
  | cons a as iha =>
    induction v with
    | nil => simp [IntersectWith_nil_right]
    | cons b bs ihb =>
      have ha := List.rel_of_sorted_cons hu
      have hb := List.rel_of_sorted_cons hv
      have hu1 := List.Sorted.of_cons hu
      have hv1 := List.Sorted.of_cons hv
      rw [IntersectWith_cons_cons]
      split
      · rename_i hab
        rw [iha hu1 hv]
        constructor
        · rintro ⟨h1, h2⟩
          exact ⟨List.mem_cons_of_mem _ h1, h2⟩
        · rintro ⟨h1, h2⟩
          refine ⟨?_, h2⟩
          rcases List.mem_cons.1 h1 with h | h
          · rcases List.mem_cons.1 h2 with h3 | h3
            · omega
            · have := hb x h3
              omega
          · exact h
      · split
        · rename_i hab hba
          rw [ihb hv1]
          constructor
          · rintro ⟨h1, h2⟩
            exact ⟨h1, List.mem_cons_of_mem _ h2⟩
          · rintro ⟨h1, h2⟩
            refine ⟨h1, ?_⟩
            rcases List.mem_cons.1 h2 with h | h
            · rcases List.mem_cons.1 h1 with h3 | h3
              · omega
              · have := ha x h3
                omega
            · exact h
        · rename_i hab hba
          have hab1 : a = b := by omega
          subst hab1
          simp only [List.mem_cons, iha hu1 hv1]
          constructor
          · rintro (h | ⟨h1, h2⟩)
            · exact ⟨Or.inl h, Or.inl h⟩
            · exact ⟨Or.inr h1, Or.inr h2⟩
          · rintro ⟨h1 | h1, h2 | h2⟩
            · exact Or.inl h1
            · exact Or.inl h1
            · exact Or.inl h2
            · exact Or.inr ⟨h1, h2⟩

/-! ## The shape of the result of formGroups -/

theorem foldl_append_flatMap {α β : Type} (F : List β → α → List β) (G : α → List β)
    (h : ∀ res a, F res a = res ++ G a) (l : List α) (res : List β) :
    l.foldl F res = res ++ l.flatMap G := by
  induction l generalizing res with
  | nil => simp
  | cons a l ih => simp [List.foldl_cons, ih, h, List.flatMap_cons]

/-- Below depth 0 every entry narrows `cur` by intersection. -/
theorem formGroupsFrom_deep (us : List uniq) (cur : List Nat) (groupVal : List groupPair)
    (res : List groupResult) (hne : groupVal ≠ []) :
    formGroupsFrom us cur groupVal res =
      res ++ (choices us).map (fun es =>
        { keys := groupVal ++ keysOf us es, uids := narrow cur es, aggregates := [] }) := by
  induction us generalizing cur groupVal res with
  | nil => simp [formGroupsFrom, choices, keysOf, narrow]
  | cons u rest ih =>
    have hlen : groupVal.length ≠ 0 := by
      intro h
      exact hne (List.length_eq_zero.1 h)
    unfold formGroupsFrom
    rw [foldl_append_flatMap _
      (fun kv => (choices rest).map (fun es =>
        ({ keys := groupVal ++ keysOf (u :: rest) (kv.2 :: es),
           uids := narrow cur (kv.2 :: es), aggregates := [] } : groupResult)))]
    · simp [choices, List.map_flatMap, List.map_map, Function.comp_def]
    · intro res kv
      simp only [hlen, ne_eq, not_false_eq_true, if_true]
      rw [ih _ _ _ (by simp)]
      simp [keysOf, narrow]

/-- The result of `formGroups` started with no keys: one group per choice of
entries, in the order of `choices`. -/
theorem formGroupsFrom_nil (us : List uniq) (cur : List Nat) (res : List groupResult)
    (hus : us ≠ []) :
    formGroupsFrom us cur [] res = res ++ (choices us).map (groupOf us) := by
  cases us with
  | nil => exact absurd rfl hus
  | cons u rest =>
    unfold formGroupsFrom
    rw [foldl_append_flatMap _
      (fun kv => (choices rest).map (fun es => groupOf (u :: rest) (kv.2 :: es)))]
    · simp [choices, List.map_flatMap, List.map_map, Function.comp_def]
    · intro res kv
      simp only [List.length_nil, ne_eq, not_true_eq_false, if_false, List.nil_append]
      rw [formGroupsFrom_deep _ _ _ _ (by simp)]
      simp [groupOf, keysOf, membersOf]

theorem foldlM_some {α β : Type} (F : β → α → β) (G : β → α → Option β)
    (h : ∀ b a, G b a = some (F b a)) (l : List α) (b : β) :
    l.foldlM G b = some (l.foldl F b) := by
  induction l generalizing b with
  | nil => rfl
  | cons a l ih =>
    rw [List.foldlM_cons, h]
    exact ih _

/-- The embedding satisfies the recursive equation of the source: with
`l = len(groupVal)`, the group is appended when `l` is the number of attributes,
and otherwise the loop over `dedupMap.groups[l].elements` calls `formGroups` on
the extended keys and the narrowed list. -/
theorem formGroups_eq (dedupMap : dedup) (cur : List Nat) (groupVal : List groupPair)
    (res : List groupResult) :
    formGroups dedupMap cur groupVal res =
      if groupVal.length = dedupMap.groups.length then
        some (res ++ [{ uids := cur, keys := groupVal, aggregates := [] }])
      else
        match dedupMap.groups[groupVal.length]? with
        | none => none
        | some u =>
          u.elements.foldlM
            (fun res kv =>
              formGroups dedupMap
                (if groupVal.length ≠ 0 then IntersectWith cur kv.2.entities else kv.2.entities)
                (groupVal ++ [{ key := kv.2.key, attr := u.attr }]) res)
            res := by
  rcases Nat.lt_trichotomy groupVal.length dedupMap.groups.length with h | h | h
  · have hne : groupVal.length ≠ dedupMap.groups.length := by omega
    have hget : dedupMap.groups[groupVal.length]? = some dedupMap.groups[groupVal.length] :=
      List.getElem?_eq_getElem h
    have hdrop : dedupMap.groups.drop groupVal.length =
        dedupMap.groups[groupVal.length] :: dedupMap.groups.drop (groupVal.length + 1) :=
      List.drop_eq_getElem_cons h
    rw [if_neg hne, hget]
    simp only [formGroups, Nat.le_of_lt h, if_true, hdrop, formGroupsFrom]
    symm
    apply foldlM_some
    intro b a
    simp [formGroups, Nat.succ_le_of_lt h]
  · simp [formGroups, h, formGroupsFrom]
  · have hne : groupVal.length ≠ dedupMap.groups.length := by omega
    have hle : ¬ groupVal.length ≤ dedupMap.groups.length := by omega
    have hget : dedupMap.groups[groupVal.length]? = none :=
      List.getElem?_eq_none (by omega)
    simp [formGroups, hne, hle, hget]

/-- With the empty list as `cur` the shape holds for every index, the empty one
included. -/
theorem formGroupsFrom_start (us : List uniq) (res : List groupResult) :
    formGroupsFrom us [] [] res = res ++ (choices us).map (groupOf us) := by
  cases us with
  | nil => simp [formGroupsFrom, choices, groupOf, keysOf, membersOf]
  | cons u rest => exact formGroupsFrom_nil _ _ _ (by simp)

theorem formGroups_start (d : dedup) :
    formGroups d [] [] [] = some ((choices d.groups).map (groupOf d.groups)) := by
  simp [formGroups, formGroupsFrom_start]

theorem mem_choices (us : List uniq) (es : List groupElements) :
    es ∈ choices us ↔ List.Forall₂ (fun u e => ∃ k, (k, e) ∈ u.elements) us es := by
  induction us generalizing es with
  | nil =>
    cases es <;> simp [choices]
  | cons u rest ih =>
    cases es with
    | nil => simp [choices]
    | cons e es =>
      simp only [choices, List.mem_flatMap, List.mem_map, List.forall₂_cons]
      constructor
      · rintro ⟨kv, hkv, es1, hes1, heq⟩
        injection heq with h1 h2
        subst h1 h2
        exact ⟨⟨kv.1, hkv⟩, (ih _).1 hes1⟩
      · rintro ⟨⟨k, hk⟩, hrest⟩
        exact ⟨(k, e), hk, es, (ih _).2 hrest, rfl⟩

theorem entries_sorted {us : List uniq} {es : List groupElements} (hs : sortedIndex us)
    (h : List.Forall₂ (fun u e => ∃ k, (k, e) ∈ u.elements) us es) :
    ∀ e ∈ es, List.Sorted (· ≤ ·) e.entities := by
  induction h with
  | nil => simp
  | @cons u e us1 es1 hhead _ ih =>
    intro e1 he1
    rcases List.mem_cons.1 he1 with h1 | h1
    · subst h1
      obtain ⟨k, hk⟩ := hhead
      exact hs u (List.mem_cons_self _ _) (k, e1) hk
    · exact ih (fun v hv => hs v (List.mem_cons_of_mem _ hv)) e1 h1

theorem mem_narrow {cur : List Nat} {es : List groupElements} (hc : List.Sorted (· ≤ ·) cur)
    (hes : ∀ e ∈ es, List.Sorted (· ≤ ·) e.entities) (x : Nat) :
    x ∈ narrow cur es ↔ x ∈ cur ∧ common es x := by
  induction es generalizing cur with
  | nil => simp [narrow, common]
  | cons e es ih =>
    have he := hes e (List.mem_cons_self _ _)
    have hrest : ∀ e1 ∈ es, List.Sorted (· ≤ ·) e1.entities :=
      fun e1 h1 => hes e1 (List.mem_cons_of_mem _ h1)
    have step : narrow cur (e :: es) = narrow (IntersectWith cur e.entities) es := rfl
    rw [step, ih (IntersectWith_sorted _ hc) hrest, mem_IntersectWith hc he]
    simp [common, and_assoc]

theorem mem_membersOf {es : List groupElements} (hne : es ≠ [])
    (hes : ∀ e ∈ es, List.Sorted (· ≤ ·) e.entities) (x : Nat) :
    x ∈ membersOf es ↔ common es x := by
  cases es with
  | nil => exact absurd rfl hne
  | cons e es =>
    have he := hes e (List.mem_cons_self _ _)
    have hrest : ∀ e1 ∈ es, List.Sorted (· ≤ ·) e1.entities :=
      fun e1 h1 => hes e1 (List.mem_cons_of_mem _ h1)
    simp only [membersOf]
    rw [mem_narrow he hrest]
    simp [common]

/-! ## C1: the members of a group -/

/-- C1: for an index with at least one attribute whose member lists are sorted
ascending, every group that `formGroups` produces from the empty list and no
keys comes from one entry per attribute: its keys are the key pairs of those
entries and its member identifiers are exactly the identifiers common to the
member lists of all of them. -/
theorem formGroups_members_common (d : dedup) (hne : d.groups ≠ [])
    (hs : sortedIndex d.groups) :
    ∃ res, formGroups d [] [] [] = some res ∧
      ∀ g ∈ res, ∃ es : List groupElements,
        List.Forall₂ (fun u e => ∃ k, (k, e) ∈ u.elements) d.groups es ∧
        g.keys = keysOf d.groups es ∧
        ∀ x, x ∈ g.uids ↔ common es x := by
  refine ⟨_, formGroups_start d, ?_⟩
  intro g hg
  obtain ⟨es, hes, rfl⟩ := List.mem_map.1 hg
  have hf := (mem_choices _ _).1 hes
  refine ⟨es, hf, rfl, ?_⟩
  have hnil : es ≠ [] := by
    intro h
    subst h
    have hl := hf.length_eq
    exact hne (List.length_eq_zero.1 hl)
  exact mem_membersOf hnil (entries_sorted hs hf)

/-- Witness of C1 on the example of the spec: entity 5 is (red, S), entity 6 is
(red, M), and the two groups have the members 5 and 6. -/
theorem formGroups_members_common_witness :
    redIndex.groups ≠ [] ∧ sortedIndex redIndex.groups ∧
    formGroups redIndex [] [] [] = some
      [{ keys := [{ key := strVal "red", attr := "color" }, { key := strVal "S", attr := "size" }],
         aggregates := [], uids := [5] },
       { keys := [{ key := strVal "red", attr := "color" }, { key := strVal "M", attr := "size" }],
         aggregates := [], uids := [6] }] ∧
    ∃ res, formGroups redIndex [] [] [] = some res ∧
      ∀ g ∈ res, ∃ es : List groupElements,
        List.Forall₂ (fun u e => ∃ k, (k, e) ∈ u.elements) redIndex.groups es ∧
        g.keys = keysOf redIndex.groups es ∧
        ∀ x, x ∈ g.uids ↔ common es x :=
  have h1 : redIndex.groups ≠ [] := by decide
  have h2 : sortedIndex redIndex.groups := by decide
  ⟨h1, h2, by decide, formGroups_members_common redIndex h1 h2⟩

/-! ## C2: groups with an empty member list -/

theorem forall₂_map_right {α β : Type} (R : α → β → Prop) (f : α → β) (l : List α)
    (h : ∀ a ∈ l, R a (f a)) : List.Forall₂ R l (l.map f) := by
  induction l with
  | nil => exact List.Forall₂.nil
  | cons a l ih =>
    exact List.Forall₂.cons (h a (List.mem_cons_self _ _))
      (ih (fun b hb => h b (List.mem_cons_of_mem _ hb)))

/-- C2, refuted as stated: on the index where entity 1 is (red, S) and entity 2
is (blue, M), `formGroups` produces four groups, one of them with an empty member
list, while only two combinations have a common identifier (1 and 2 are the only
identifiers of the index). -/
theorem formGroups_keeps_empty_groups :
    ∃ res, formGroups crossIndex [] [] [] = some res ∧
      ¬ (∀ g ∈ res, g.uids ≠ []) ∧
      res.length = 4 ∧
      (choices crossIndex.groups).countP (fun es => [1, 2].any (fun x => decide (common es x))) = 2 :=
  ⟨_, rfl, by decide, by decide, by decide⟩

/-- C2, amended: for an index with at least one attribute and sorted member lists
`formGroups` produces one group for every combination of one entry per attribute,
in the order of the combinations, also when the entries have no common
identifier; the member list of the group is non-empty exactly when the entries
have a common identifier, so the groups with a non-empty member list are as many
as the combinations with a non-empty intersection. -/
theorem formGroups_nonempty_iff (d : dedup) (hne : d.groups ≠ [])
    (hs : sortedIndex d.groups) :
    ∃ res, formGroups d [] [] [] = some res ∧
      List.Forall₂ (fun es g => g.keys = keysOf d.groups es ∧ (g.uids ≠ [] ↔ ∃ x, common es x))
        (choices d.groups) res ∧
      res.countP (fun g => decide (g.uids ≠ [])) =
        (choices d.groups).countP
          (fun es => @decide (∃ x, common es x) (Classical.propDecidable _)) := by
  have key : ∀ es ∈ choices d.groups, (membersOf es ≠ [] ↔ ∃ x, common es x) := by
    intro es hes
    have hf := (mem_choices _ _).1 hes
    have hnil : es ≠ [] := by
      intro h
      subst h
      exact hne (List.length_eq_zero.1 hf.length_eq)
    have hm := mem_membersOf hnil (entries_sorted hs hf)
    constructor
    · intro h
      obtain ⟨x, hx⟩ := List.exists_mem_of_ne_nil _ h
      exact ⟨x, (hm x).1 hx⟩
    · rintro ⟨x, hx⟩ h
      have := (hm x).2 hx
      rw [h] at this
      exact absurd this (List.not_mem_nil x)
  refine ⟨_, formGroups_start d, ?_, ?_⟩
  · exact forall₂_map_right _ _ _ (fun es hes => ⟨rfl, key es hes⟩)
  · rw [List.countP_map]
    apply List.countP_congr
    intro es hes
    simp [groupOf, key es hes]

/-- Witness of the amended C2 on the two-colour, two-size index. -/
theorem formGroups_nonempty_iff_witness :
    crossIndex.groups ≠ [] ∧ sortedIndex crossIndex.groups ∧
    ∃ res, formGroups crossIndex [] [] [] = some res ∧
      List.Forall₂
        (fun es g => g.keys = keysOf crossIndex.groups es ∧ (g.uids ≠ [] ↔ ∃ x, common es x))
        (choices crossIndex.groups) res ∧
      res.countP (fun g => decide (g.uids ≠ [])) =
        (choices crossIndex.groups).countP
          (fun es => @decide (∃ x, common es x) (Classical.propDecidable _)) :=
  ⟨by decide, by decide, formGroups_nonempty_iff crossIndex (by decide) (by decide)⟩

/-! ## C10: the keys of a group -/

theorem keysOf_forall₂ {us : List uniq} {es : List groupElements}
    (h : List.Forall₂ (fun u e => ∃ k, (k, e) ∈ u.elements) us es) :
    List.Forall₂ (fun u p => p.attr = u.attr ∧ ∃ kv ∈ u.elements, p.key = kv.2.key)
      us (keysOf us es) := by
  induction h with
  | nil => exact List.Forall₂.nil
  | @cons u e us1 es1 hhead _ ih =>
    obtain ⟨k, hk⟩ := hhead
    exact List.Forall₂.cons ⟨rfl, (k, e), hk, rfl⟩ ih

/-- C10: every group that `formGroups` produces from no keys has one key pair
per attribute of the index, in index order: the i-th pair carries the name of
the i-th attribute and the representative value of an entry of its bucket. -/
theorem formGroups_keys_per_attribute (d : dedup) :
    ∃ res, formGroups d [] [] [] = some res ∧
      ∀ g ∈ res,
        List.Forall₂ (fun u p => p.attr = u.attr ∧ ∃ kv ∈ u.elements, p.key = kv.2.key)
          d.groups g.keys := by
  refine ⟨_, formGroups_start d, ?_⟩
  intro g hg
  obtain ⟨es, hes, rfl⟩ := List.mem_map.1 hg
  exact keysOf_forall₂ ((mem_choices _ _).1 hes)

/-! ## C4: the two directions of groupLess -/

theorem valueLt_irrefl (x : Value) : Value.lt x x = false := by
  cases x <;> simp [Value.lt]

theorem valueLt_asymm (x y : Value) (h : Value.lt x y = true) : Value.lt y x = false := by
  cases x <;> cases y <;> simp [Value.lt, Value.rank] at h ⊢
  · omega
  · omega
  · exact le_of_lt h
  · omega

theorem valueLt_trans (x y z : Value) (h1 : Value.lt x y = true) (h2 : Value.lt y z = true) :
    Value.lt x z = true := by
  cases x <;> cases y <;> cases z <;> simp [Value.lt, Value.rank] at h1 h2 ⊢
  · omega
  · omega
  · exact lt_trans h1 h2
  · omega

theorem valueLt_total (x y : Value) (h : x ≠ y) : Value.lt x y = true ∨ Value.lt y x = true := by
  cases x <;> cases y <;> simp [Value.lt, Value.rank] at h ⊢
  · omega
  · omega
  · rename_i s t
    exact fun e => h (String.ext e)
  · omega

theorem sampleLess_err (x y : Val) :
    (sampleLess x y).2 = none ↔ (x.Tid = y.Tid ∧ ∀ n, x.Tid ≠ TypeID.other n) := by
  unfold sampleLess
  by_cases h : x.Tid = y.Tid
  · cases hx : x.Tid <;> simp [← h, hx]
  · simp [h]

theorem sampleLess_fst (x y : Val) (h : (sampleLess x y).2 = none) :
    (sampleLess x y).1 = Value.lt x.Value y.Value := by
  have h1 := (sampleLess_err x y).1 h
  unfold sampleLess
  cases hx : x.Tid <;> simp [← h1.1, hx]
  exact absurd hx (h1.2 _)

theorem sampleLess_errSymm : LessErrSymm sampleLess := by
  intro x y
  rw [sampleLess_err, sampleLess_err]
  constructor
  · rintro ⟨h1, h2⟩
    exact ⟨h1.symm, fun n => h1 ▸ h2 n⟩
  · rintro ⟨h1, h2⟩
    exact ⟨h1.symm, fun n => h1 ▸ h2 n⟩

theorem sampleLess_asymm : LessAsymm sampleLess := by
  intro x y h1 h2 h3
  rw [sampleLess_fst _ _ h1] at h3
  rw [sampleLess_fst _ _ h2]
  exact valueLt_asymm _ _ h3

theorem step_mirror {Less : Val → Val → Bool × Option String} (hasym : LessAsymm Less)
    (herr : LessErrSymm Less) (x y : Val) :
    Mirror (groupLess.step Less x y) (groupLess.step Less y x) := by
  unfold groupLess.step Mirror
  by_cases he : (Less x y).2 = none
  · have he1 := (herr x y).1 he
    have ha := hasym x y he he1
    have hb := hasym y x he1 he
    cases h1 : (Less x y).1 <;> cases h2 : (Less y x).1 <;> simp_all
  · have he1 : ¬ (Less y x).2 = none := fun h => he ((herr x y).2 h)
    simp [he, he1]

theorem values_mirror {Less : Val → Val → Bool × Option String} (hasym : LessAsymm Less)
    (herr : LessErrSymm Less) (xs ys : List groupPair) :
    Mirror (groupLess.values Less xs ys) (groupLess.values Less ys xs) := by
  induction xs generalizing ys with
  | nil => cases ys <;> simp [groupLess.values, Mirror]
  | cons x xs ih =>
    cases ys with
    | nil => simp [groupLess.values, Mirror]
    | cons y ys =>
      simp only [groupLess.values]
      rcases step_mirror hasym herr x.key y.key with h | h | h
      · rw [h.1, h.2]
        exact ih ys
      · rw [h.1, h.2]
        exact Or.inr (Or.inl ⟨rfl, rfl⟩)
      · rw [h.1, h.2]
        exact Or.inr (Or.inr ⟨rfl, rfl⟩)

theorem uids_mirror (xs ys : List Nat) (s t : Nat) :
    Mirror (groupLess.uids xs ys s t) (groupLess.uids ys xs t s) := by
  have base : ∀ s t : Nat,
      Mirror (if s < t then some true else if s ≠ t then some false else none)
        (if t < s then some true else if t ≠ s then some false else none) := by
    intro s t
    unfold Mirror
    rcases Nat.lt_trichotomy s t with h | h | h
    · have h1 : ¬ t < s := by omega
      have h2 : t ≠ s := by omega
      simp [h, h1, h2]
    · subst h
      simp
    · have h1 : ¬ s < t := by omega
      have h2 : s ≠ t := by omega
      simp [h, h1, h2]
  induction xs generalizing ys s t with
  | nil => cases ys <;> simp only [groupLess.uids] <;> exact base s t
  | cons x xs ih =>
    cases ys with
    | nil => simp only [groupLess.uids]; exact base s t
    | cons y ys =>
      simp only [groupLess.uids]
      rcases Nat.lt_trichotomy x y with h | h | h
      · have h1 : ¬ y < x := by omega
        simp [h, h1, Mirror]
      · subst h
        simp only [lt_self_iff_false, gt_iff_lt, if_false]
        exact ih ys _ _
      · have h1 : ¬ x < y := by omega
        simp [h, h1, Mirror]

theorem groupLess_mirror {Less : Val → Val → Bool × Option String} (hasym : LessAsymm Less)
    (herr : LessErrSymm Less) (a b : groupResult) :
    Mirror (groupLess Less a b) (groupLess Less b a) := by
  unfold groupLess
  rcases Nat.lt_trichotomy a.keys.length b.keys.length with h | h | h
  · have h1 : ¬ b.keys.length < a.keys.length := by omega
    have h2 : b.keys.length ≠ a.keys.length := by omega
    simp [h, h1, h2, Mirror]
  swap
  · have h1 : ¬ a.keys.length < b.keys.length := by omega
    have h2 : a.keys.length ≠ b.keys.length := by omega
    simp [h, h1, h2, Mirror]
  rcases Nat.lt_trichotomy a.aggregates.length b.aggregates.length with h3 | h3 | h3
  · have h1 : ¬ b.aggregates.length < a.aggregates.length := by omega
    have h2 : b.aggregates.length ≠ a.aggregates.length := by omega
    simp [h, h3, h1, h2, Mirror]
  swap
  · have h1 : ¬ a.aggregates.length < b.aggregates.length := by omega
    have h2 : a.aggregates.length ≠ b.aggregates.length := by omega
    simp [h, h3, h1, h2, Mirror]
  rcases Nat.lt_trichotomy a.uids.length b.uids.length with h4 | h4 | h4
  · have h1 : ¬ b.uids.length < a.uids.length := by omega
    have h2 : b.uids.length ≠ a.uids.length := by omega
    simp [h, h3, h4, h1, h2, Mirror]
  swap
  · have h1 : ¬ a.uids.length < b.uids.length := by omega
    have h2 : a.uids.length ≠ b.uids.length := by omega
    simp [h, h3, h4, h1, h2, Mirror]
  simp only [h, h3, h4, lt_self_iff_false, ne_eq, not_true_eq_false, if_false]
  rcases values_mirror hasym herr a.keys b.keys with k | k | k
  · rw [k.1, k.2]
    rcases values_mirror hasym herr a.aggregates b.aggregates with g | g | g
    · rw [g.1, g.2]
      exact uids_mirror _ _ _ _
    · rw [g.1, g.2]
      exact Or.inr (Or.inl ⟨rfl, rfl⟩)
    · rw [g.1, g.2]
      exact Or.inr (Or.inr ⟨rfl, rfl⟩)
  · rw [k.1, k.2]
    exact Or.inr (Or.inl ⟨rfl, rfl⟩)
  · rw [k.1, k.2]
    exact Or.inr (Or.inr ⟨rfl, rfl⟩)

/-- C4: when `types.Less` is asymmetric and reports its errors symmetrically, for
every two groups either both `groupLess a b` and `groupLess b a` reach the fatal
error, or one of them returns `true` and the other `false`. -/
theorem groupLess_total_up_to_fatal (Less : Val → Val → Bool × Option String)
    (hasym : LessAsymm Less) (herr : LessErrSymm Less) (a b : groupResult) :
    (groupLess Less a b = none ∧ groupLess Less b a = none) ∨
    (groupLess Less a b = some true ∧ groupLess Less b a = some false) ∨
    (groupLess Less a b = some false ∧ groupLess Less b a = some true) :=
  groupLess_mirror hasym herr a b

/-- Witness of C4 with the sample ordering on the groups (red, S) and (red, M). -/
theorem groupLess_total_up_to_fatal_witness :
    LessAsymm sampleLess ∧ LessErrSymm sampleLess ∧
    groupLess sampleLess
      { keys := [{ key := strVal "red", attr := "color" }, { key := strVal "S", attr := "size" }],
        aggregates := [], uids := [5] }
      { keys := [{ key := strVal "red", attr := "color" }, { key := strVal "M", attr := "size" }],
        aggregates := [], uids := [6] } = some false ∧
    groupLess sampleLess
      { keys := [{ key := strVal "red", attr := "color" }, { key := strVal "M", attr := "size" }],
        aggregates := [], uids := [6] }
      { keys := [{ key := strVal "red", attr := "color" }, { key := strVal "S", attr := "size" }],
        aggregates := [], uids := [5] } = some true :=
  have h := groupLess_total_up_to_fatal sampleLess sampleLess_asymm sampleLess_errSymm
    { keys := [{ key := strVal "red", attr := "color" }, { key := strVal "S", attr := "size" }],
      aggregates := [], uids := [5] }
    { keys := [{ key := strVal "red", attr := "color" }, { key := strVal "M", attr := "size" }],
      aggregates := [], uids := [6] }
  have e : groupLess sampleLess
      { keys := [{ key := strVal "red", attr := "color" }, { key := strVal "S", attr := "size" }],
        aggregates := [], uids := [5] }
      { keys := [{ key := strVal "red", attr := "color" }, { key := strVal "M", attr := "size" }],
        aggregates := [], uids := [6] } = some false := by decide
  ⟨sampleLess_asymm, sampleLess_errSymm, e, by
    rcases h with h | h | h
    · rw [e] at h
      exact absurd h.1 (by simp)
    · rw [e] at h
      exact absurd h.1 (by simp)
    · exact h.2⟩

/-! ## C3: independence of the enumeration order -/

theorem keysOf_congr {us vs : List uniq} (h : List.Forall₂ sameBucket us vs)
    (es : List groupElements) : keysOf us es = keysOf vs es := by
  induction h generalizing es with
  | nil => rfl
  | @cons u v us1 vs1 huv _ ih =>
    cases es with
    | nil => rfl
    | cons e es =>
      simp only [keysOf, List.zipWith_cons_cons, huv.1]
      exact congrArg _ (ih es)

theorem choices_perm {us vs : List uniq} (h : List.Forall₂ sameBucket us vs) :
    (choices us).Perm (choices vs) := by
  induction h with
  | nil => exact List.Perm.refl _
  | @cons u v us1 vs1 huv _ ih =>
    simp only [choices]
    exact (List.Perm.flatMap_right _ huv.2).trans
      (List.Perm.flatMap_left _ (fun kv _ => List.Perm.map _ ih))

theorem groups_perm {us vs : List uniq} (h : List.Forall₂ sameBucket us vs) :
    ((choices us).map (groupOf us)).Perm ((choices vs).map (groupOf vs)) := by
  have e : groupOf us = groupOf vs := by
    funext es
    simp only [groupOf, keysOf_congr h]
  rw [e]
  exact List.Perm.map _ (choices_perm h)

/-- The first half of the independence of the enumeration order: when two
indexes hold the same buckets, each enumerated in any two orders, the two lists
of groups that `formGroups` produces are permutations of each other. -/
theorem formGroups_perm (d e : dedup) (h : List.Forall₂ sameBucket d.groups e.groups) :
    ∃ r1 r2, formGroups d [] [] [] = some r1 ∧ formGroups e [] [] [] = some r2 ∧
      r1.Perm r2 :=
  ⟨_, _, formGroups_start d, formGroups_start e, groups_perm h⟩

/-- C3, the code at the failing input: one grouping child whose parents 1, 2, 3
hold the values integer 5, string q, integer 1.  The index that
`processGroupBy` builds has one bucket, and the same map enumerated in another
order gives the same three groups in another order (a permutation); no
comparison of two of these groups is the fatal tie, yet the sort leaves each
list as it was formed, members 1, 2, 3 in one run and 3, 1, 2 in the other:
`groupLess` is cyclic on these groups, the key being skipped between an integer
and a string and deciding between the two integers. -/
theorem sorted_groups_depend_on_enumeration :
    processGroupBy.index sampleConvertTo sampleMarshal [mixedChild] = some mixedIndex ∧
    mixedIndex.groups.length = 1 ∧
    List.Forall₂ sameBucket mixedIndex.groups mixedIndexAgain.groups ∧
    ∃ r1 r2 s1 s2,
      formGroups mixedIndex [] [] [] = some r1 ∧
      formGroups mixedIndexAgain [] [] [] = some r2 ∧
      r1.Perm r2 ∧
      (∀ a ∈ r1, ∀ b ∈ r1, a ≠ b → groupLess sampleLess a b ≠ none) ∧
      insertionSort_func (groupLess sampleLess) r1 = some s1 ∧
      insertionSort_func (groupLess sampleLess) r2 = some s2 ∧
      s1.map (fun g => g.uids) = [[1], [2], [3]] ∧
      s2.map (fun g => g.uids) = [[3], [1], [2]] ∧
      s1 ≠ s2 :=
  ⟨by decide, by decide,
    List.Forall₂.cons ⟨rfl, by decide⟩ List.Forall₂.nil,
    _, _, _, _, rfl, rfl, by decide, by decide, rfl, rfl, by decide, by decide, by decide⟩

/-! ## C5: the fatal tie is reachable -/

/-- C5, the code at the failing input: on the index of two identifier-valued
attributes where entities 1 and 2 refer to the same entities, `formGroups`
produces four groups; the second and the third have the same keys and an empty
member list, and `groupLess` reaches the fatal error on them in both
directions. -/
theorem groupLess_fatal_on_formed_groups :
    ∃ res a b, formGroups tieIndex [] [] [] = some res ∧ res.length = 4 ∧
      res[1]? = some a ∧ res[2]? = some b ∧
      a.keys = [{ key := uidVal 10, attr := "friend" }, { key := uidVal 20, attr := "boss" }] ∧
      a.uids = [] ∧
      groupLess sampleLess a b = none ∧ groupLess sampleLess b a = none :=
  ⟨_, _, _, rfl, by decide, rfl, rfl, by decide, by decide, by decide, by decide⟩

/-! ## groupLess as a sequence of comparisons -/

theorem groupLess_chain (Less : Val → Val → Bool × Option String) (a b : groupResult) :
    groupLess Less a b =
      andThen (cmpLen a.keys.length b.keys.length)
        (andThen (cmpLen a.aggregates.length b.aggregates.length)
          (andThen (cmpLen a.uids.length b.uids.length)
            (andThen (groupLess.values Less a.keys b.keys)
              (andThen (groupLess.values Less a.aggregates b.aggregates)
                (groupLess.uids a.uids b.uids 0 0))))) := by
  unfold groupLess cmpLen
  split_ifs <;> simp only [andThen]

theorem cmpLen_eq_none {m n : Nat} : cmpLen m n = none ↔ m = n := by
  unfold cmpLen
  split_ifs <;> simp <;> omega

theorem values_cons (Less : Val → Val → Bool × Option String) (x y : groupPair)
    (xs ys : List groupPair) :
    groupLess.values Less (x :: xs) (y :: ys) =
      andThen (groupLess.step Less x.key y.key) (groupLess.values Less xs ys) := by
  simp only [groupLess.values]
  cases groupLess.step Less x.key y.key <;> rfl

theorem uids_cons (x y : Nat) (xs ys : List Nat) (s : Nat) :
    groupLess.uids (x :: xs) (y :: ys) s s =
      andThen (cmpLen x y)
        (groupLess.uids xs ys ((s + x) % 2 ^ 64) ((s + x) % 2 ^ 64)) := by
  simp only [groupLess.uids, cmpLen]
  rcases Nat.lt_trichotomy x y with h | h | h
  · simp [h, andThen]
  · subst h
    simp [andThen]
  · have h1 : ¬ x < y := by omega
    have h2 : x ≠ y := by omega
    simp [h, h1, h2, andThen]

theorem uids_nil (s : Nat) : groupLess.uids [] [] s s = none := by
  simp [groupLess.uids]

/-! ## C7: transitivity -/

theorem Tri_andThen {p1 p2 p3 q1 q2 q3 : Option Bool} (hp : Tri p1 p2 p3)
    (hq : p1 = none → p2 = none → Tri q1 q2 q3) :
    Tri (andThen p1 q1) (andThen p2 q2) (andThen p3 q3) := by
  unfold Tri at hp hq ⊢
  rcases p1 with _ | b1 <;> rcases p2 with _ | b2 <;> rcases p3 with _ | b3 <;>
    simp_all [andThen]

theorem Tri_cmpLen (l m n : Nat) : Tri (cmpLen l m) (cmpLen m n) (cmpLen l n) := by
  unfold Tri cmpLen
  refine ⟨?_, ?_, ?_⟩
  · intro h
    have : l = m := by
      by_contra hne
      split_ifs at h
    subst this
    rfl
  · intro h
    have : m = n := by
      by_contra hne
      split_ifs at h
    subst this
    rfl
  · intro h1 h2
    have a1 : l < m := by
      by_contra hne
      split_ifs at h1
      simp at h1
    have a2 : m < n := by
      by_contra hne
      split_ifs at h2
      simp at h2
    have : l < n := by omega
    simp [this]

theorem Tri_step {supported : TypeID → Bool} {Less : Val → Val → Bool × Option String}
    (hord : TypedStrictOrder supported Less) (x y z : Val)
    (hxy : x.Tid = y.Tid) (hyz : y.Tid = z.Tid) :
    Tri (groupLess.step Less x y) (groupLess.step Less y z) (groupLess.step Less x z) := by
  obtain ⟨herr, hirr, htrans, htotal⟩ := hord
  by_cases hs : supported x.Tid = true
  · have hsy : supported y.Tid = true := hxy ▸ hs
    have hsz : supported z.Tid = true := hyz ▸ hsy
    have exy : (Less x y).2 = none := (herr x y).2 ⟨hxy, hs⟩
    have eyx : (Less y x).2 = none := (herr y x).2 ⟨hxy.symm, hsy⟩
    have eyz : (Less y z).2 = none := (herr y z).2 ⟨hyz, hsy⟩
    have ezy : (Less z y).2 = none := (herr z y).2 ⟨hyz.symm, hsz⟩
    have exz : (Less x z).2 = none := (herr x z).2 ⟨hxy.trans hyz, hs⟩
    have ezx : (Less z x).2 = none := (herr z x).2 ⟨(hxy.trans hyz).symm, hsz⟩
    unfold Tri groupLess.step
    simp only [exy, eyz, exz, if_true]
    refine ⟨?_, ?_, ?_⟩
    · intro h
      have hxy1 : x = y := by
        by_contra hne
        rcases htotal x y exy hne with h1 | h1
        · simp [h1] at h
        · by_cases h2 : (Less x y).1 = true
          · simp [h2] at h
          · simp [h2, h1] at h
      subst hxy1
      rfl
    · intro h
      have hyz1 : y = z := by
        by_contra hne
        rcases htotal y z eyz hne with h1 | h1
        · simp [h1] at h
        · by_cases h2 : (Less y z).1 = true
          · simp [h2] at h
          · simp [h2, h1] at h
      subst hyz1
      rfl
    · intro h1 h2
      have a1 : (Less x y).1 = true := by
        by_contra hne
        by_cases h3 : (Less y x).1 = true <;> simp [hne, h3] at h1
      have a2 : (Less y z).1 = true := by
        by_contra hne
        by_cases h3 : (Less z y).1 = true <;> simp [hne, h3] at h2
      simp [htrans x y z exy eyz a1 a2]
  · have exy : ¬ (Less x y).2 = none := fun h => hs ((herr x y).1 h).2
    have eyz : ¬ (Less y z).2 = none := fun h => hs (hxy ▸ ((herr y z).1 h).2)
    have exz : ¬ (Less x z).2 = none := fun h => hs ((herr x z).1 h).2
    unfold Tri groupLess.step
    simp [exy, eyz, exz]

theorem Tri_values {supported : TypeID → Bool} {Less : Val → Val → Bool × Option String}
    (hord : TypedStrictOrder supported Less) (xs ys zs : List groupPair)
    (h1 : xs.length = ys.length) (h2 : ys.length = zs.length)
    (t1 : sameTypes xs ys) (t2 : sameTypes ys zs) :
    Tri (groupLess.values Less xs ys) (groupLess.values Less ys zs)
      (groupLess.values Less xs zs) := by
  induction xs generalizing ys zs with
  | nil =>
    cases ys with
    | nil =>
      cases zs with
      | nil => simp [groupLess.values, Tri]
      | cons z zs => simp at h2
    | cons y ys => simp at h1
  | cons x xs ih =>
    cases ys with
    | nil => simp at h1
    | cons y ys =>
      cases zs with
      | nil => simp at h2
      | cons z zs =>
        rw [values_cons, values_cons, values_cons]
        have a1 : x.key.Tid = y.key.Tid := t1 (x, y) (by simp)
        have a2 : y.key.Tid = z.key.Tid := t2 (y, z) (by simp)
        have b1 : sameTypes xs ys := fun p hp => t1 p (by simp [hp])
        have b2 : sameTypes ys zs := fun p hp => t2 p (by simp [hp])
        exact Tri_andThen (Tri_step hord _ _ _ a1 a2)
          (fun _ _ => ih ys zs (by simpa using h1) (by simpa using h2) b1 b2)

theorem Tri_uids (xs ys zs : List Nat) (h1 : xs.length = ys.length)
    (h2 : ys.length = zs.length) (s1 s2 s3 : Nat) :
    Tri (groupLess.uids xs ys s1 s1) (groupLess.uids ys zs s2 s2)
      (groupLess.uids xs zs s3 s3) := by
  induction xs generalizing ys zs s1 s2 s3 with
  | nil =>
    cases ys with
    | nil =>
      cases zs with
      | nil => simp [uids_nil, Tri]
      | cons z zs => simp at h2
    | cons y ys => simp at h1
  | cons x xs ih =>
    cases ys with
    | nil => simp at h1
    | cons y ys =>
      cases zs with
      | nil => simp at h2
      | cons z zs =>
        rw [uids_cons, uids_cons, uids_cons]
        exact Tri_andThen (Tri_cmpLen x y z)
          (fun _ _ => ih ys zs (by simpa using h1) (by simpa using h2) _ _ _)

theorem groupLess_tri {supported : TypeID → Bool} {Less : Val → Val → Bool × Option String}
    (hord : TypedStrictOrder supported Less) (a b c : groupResult)
    (k1 : sameTypes a.keys b.keys) (k2 : sameTypes b.keys c.keys)
    (g1 : sameTypes a.aggregates b.aggregates) (g2 : sameTypes b.aggregates c.aggregates) :
    Tri (groupLess Less a b) (groupLess Less b c) (groupLess Less a c) := by
  rw [groupLess_chain, groupLess_chain, groupLess_chain]
  refine Tri_andThen (Tri_cmpLen _ _ _) (fun e1 e2 => ?_)
  refine Tri_andThen (Tri_cmpLen _ _ _) (fun e3 e4 => ?_)
  refine Tri_andThen (Tri_cmpLen _ _ _) (fun e5 e6 => ?_)
  rw [cmpLen_eq_none] at e1 e2 e3 e4 e5 e6
  refine Tri_andThen (Tri_values hord _ _ _ e1 e2 k1 k2) (fun _ _ => ?_)
  refine Tri_andThen (Tri_values hord _ _ _ e3 e4 g1 g2) (fun _ _ => ?_)
  exact Tri_uids _ _ _ e5 e6 _ _ _

theorem sampleLess_typedStrictOrder : TypedStrictOrder sampleSupported sampleLess := by
  refine ⟨?_, ?_, ?_, ?_⟩
  · intro x y
    rw [sampleLess_err]
    constructor
    · rintro ⟨h1, h2⟩
      refine ⟨h1, ?_⟩
      cases hx : x.Tid <;> simp [sampleSupported]
      exact h2 _ hx
    · rintro ⟨h1, h2⟩
      refine ⟨h1, ?_⟩
      intro n hn
      rw [hn] at h2
      simp [sampleSupported] at h2
  · intro x h
    rw [sampleLess_fst _ _ h]
    exact valueLt_irrefl _
  · intro x y z exy eyz h1 h2
    have exz : (sampleLess x z).2 = none := by
      rw [sampleLess_err] at exy eyz ⊢
      exact ⟨exy.1.trans eyz.1, exy.2⟩
    rw [sampleLess_fst _ _ exy] at h1
    rw [sampleLess_fst _ _ eyz] at h2
    rw [sampleLess_fst _ _ exz]
    exact valueLt_trans _ _ _ h1 h2
  · intro x y exy hne
    have eyx := (sampleLess_errSymm x y).1 exy
    rw [sampleLess_fst _ _ exy, sampleLess_fst _ _ eyx]
    have hT := ((sampleLess_err x y).1 exy).1
    have hv : x.Value ≠ y.Value := by
      intro hv
      apply hne
      cases x
      cases y
      simp_all
    exact valueLt_total _ _ hv

/-- C7, refuted as stated: with the sample ordering (a strict total order on each
supported type, an error across types) the groups with keys (5, "a"),
("q", "b") and (1, "c") satisfy `a < b` and `b < c` but `groupLess a c` is
`false`, because the first key position is skipped against b and decides
between a and c. -/
theorem groupLess_not_transitive :
    ¬ (∀ (supported : TypeID → Bool) (Less : Val → Val → Bool × Option String),
        TypedStrictOrder supported Less →
        ∀ a b c : groupResult, groupLess Less a b = some true → groupLess Less b c = some true →
          groupLess Less a c = some true) := by
  intro h
  have h1 := h sampleSupported sampleLess sampleLess_typedStrictOrder
    { keys := [{ key := intVal 5, attr := "x" }, { key := strVal "a", attr := "y" }],
      aggregates := [], uids := [1] }
    { keys := [{ key := strVal "q", attr := "x" }, { key := strVal "b", attr := "y" }],
      aggregates := [], uids := [2] }
    { keys := [{ key := intVal 1, attr := "x" }, { key := strVal "c", attr := "y" }],
      aggregates := [], uids := [3] }
    (by decide) (by decide)
  revert h1
  decide

/-- C7, amended: when `types.Less` is a strict total order on the values of each
supported type and reports an error for values of different or unsupported
types, `groupLess` is transitive on groups whose values have the same type at
each key position and at each aggregate position. -/
theorem groupLess_transitive_same_types (supported : TypeID → Bool)
    (Less : Val → Val → Bool × Option String) (hord : TypedStrictOrder supported Less)
    (a b c : groupResult)
    (k1 : sameTypes a.keys b.keys) (k2 : sameTypes b.keys c.keys)
    (g1 : sameTypes a.aggregates b.aggregates) (g2 : sameTypes b.aggregates c.aggregates)
    (hab : groupLess Less a b = some true) (hbc : groupLess Less b c = some true) :
    groupLess Less a c = some true :=
  (groupLess_tri hord a b c k1 k2 g1 g2).2.2 hab hbc

/-- Witness of the amended C7 with the sample ordering on three groups whose keys
are an integer and a string. -/
theorem groupLess_transitive_same_types_witness :
    TypedStrictOrder sampleSupported sampleLess ∧
    groupLess sampleLess
      { keys := [{ key := intVal 1, attr := "x" }, { key := strVal "b", attr := "y" }],
        aggregates := [], uids := [1] }
      { keys := [{ key := intVal 2, attr := "x" }, { key := strVal "a", attr := "y" }],
        aggregates := [], uids := [3] } = some true :=
  ⟨sampleLess_typedStrictOrder,
    groupLess_transitive_same_types sampleSupported sampleLess sampleLess_typedStrictOrder
      { keys := [{ key := intVal 1, attr := "x" }, { key := strVal "b", attr := "y" }],
        aggregates := [], uids := [1] }
      { keys := [{ key := intVal 1, attr := "x" }, { key := strVal "c", attr := "y" }],
        aggregates := [], uids := [2] }
      { keys := [{ key := intVal 2, attr := "x" }, { key := strVal "a", attr := "y" }],
        aggregates := [], uids := [3] }
      (by decide) (by decide) (by decide) (by decide) (by decide) (by decide)⟩

/-! ## C6: the precedence of the criteria -/

theorem cmpLen_eq_byCount (m n : Nat) : cmpLen m n = (byCount m n).answer := by
  unfold cmpLen byCount
  rcases Nat.lt_trichotomy m n with h | h | h
  · simp [h, Verdict.answer]
  · subst h
    simp [Verdict.answer]
  · have h1 : ¬ m < n := by omega
    have h2 : m ≠ n := by omega
    simp [h, h1, h2, Verdict.answer]

theorem step_eq_established {Less : Val → Val → Bool × Option String}
    (herr : LessErrSymm Less) (x y : Val) :
    groupLess.step Less x y =
      if established Less x y then some true
      else if established Less y x then some false
      else none := by
  unfold groupLess.step established
  by_cases he : (Less x y).2 = none
  · have he1 := (herr x y).1 he
    simp [he, he1]
  · have he1 : ¬ (Less y x).2 = none := fun h => he ((herr x y).2 h)
    have a1 : (Less x y).2.isNone = false := by
      cases h : (Less x y).2 with
      | none => exact absurd h he
      | some _ => rfl
    have a2 : (Less y x).2.isNone = false := by
      cases h : (Less y x).2 with
      | none => exact absurd h he1
      | some _ => rfl
    simp [he, a1, a2]

theorem values_eq_byValues {Less : Val → Val → Bool × Option String}
    (herr : LessErrSymm Less) (xs ys : List groupPair) :
    groupLess.values Less xs ys = (byValues Less xs ys).answer := by
  induction xs generalizing ys with
  | nil => cases ys <;> simp [groupLess.values, byValues, Verdict.answer]
  | cons x xs ih =>
    cases ys with
    | nil => simp [groupLess.values, byValues, Verdict.answer]
    | cons y ys =>
      rw [values_cons, step_eq_established herr, ih ys]
      simp only [byValues]
      by_cases h1 : established Less x.key y.key = true
      · simp [h1, andThen, Verdict.answer]
      · by_cases h2 : established Less y.key x.key = true
        · simp [h1, h2, andThen, Verdict.answer]
        · simp [h1, h2, andThen]

theorem uids_eq_byUids (xs ys : List Nat) (h : xs.length = ys.length) (s : Nat) :
    groupLess.uids xs ys s s = (byUids xs ys).answer := by
  induction xs generalizing ys s with
  | nil =>
    cases ys with
    | nil => simp [uids_nil, byUids, Verdict.answer]
    | cons y ys => simp at h
  | cons x xs ih =>
    cases ys with
    | nil => simp at h
    | cons y ys =>
      rw [uids_cons, ih ys (by simpa using h), cmpLen_eq_byCount]
      simp only [byUids, byCount]
      by_cases h1 : x < y
      · simp [h1, andThen, Verdict.answer]
      · by_cases h2 : y < x
        · simp [h1, h2, andThen, Verdict.answer]
        · simp [h1, h2, andThen, Verdict.answer]

theorem answer_firstDeciding_cons (v : Verdict) (rest : List Verdict) :
    (firstDeciding (v :: rest)).answer = andThen v.answer (firstDeciding rest).answer := by
  cases v <;> simp [firstDeciding, Verdict.answer, andThen]

theorem refLess_chain (Less : Val → Val → Bool × Option String) (a b : groupResult) :
    refLess Less a b =
      andThen (byCount a.keys.length b.keys.length).answer
        (andThen (byCount a.aggregates.length b.aggregates.length).answer
          (andThen (byCount a.uids.length b.uids.length).answer
            (andThen (byValues Less a.keys b.keys).answer
              (andThen (byValues Less a.aggregates b.aggregates).answer
                (byUids a.uids b.uids).answer)))) := by
  have e : ∀ v : Verdict, (match v with
      | Verdict.aFirst => some true
      | Verdict.bFirst => some false
      | Verdict.tie => none) = v.answer := by
    intro v
    cases v <;> rfl
  unfold refLess
  rw [e]
  simp only [answer_firstDeciding_cons]
  cases (byUids a.uids b.uids) <;> simp [firstDeciding, Verdict.answer, andThen]

theorem andThen_congr_right {p q1 q2 : Option Bool} (h : p = none → q1 = q2) :
    andThen p q1 = andThen p q2 := by
  cases p with
  | none => exact h rfl
  | some r => rfl

/-- With symmetric errors `groupLess` and the reference comparator agree on
every pair of groups, the fatal tie being the case where no criterion differs. -/
theorem groupLess_eq_refLess {Less : Val → Val → Bool × Option String}
    (herr : LessErrSymm Less) (a b : groupResult) :
    groupLess Less a b = refLess Less a b := by
  rw [groupLess_chain, refLess_chain, cmpLen_eq_byCount, cmpLen_eq_byCount,
    values_eq_byValues herr, values_eq_byValues herr]
  refine andThen_congr_right (fun _ => ?_)
  refine andThen_congr_right (fun _ => ?_)
  rw [cmpLen_eq_byCount]
  refine andThen_congr_right (fun h => ?_)
  rw [← cmpLen_eq_byCount, cmpLen_eq_none] at h
  rw [uids_eq_byUids _ _ h]

/-- C6: when `types.Less` reports its errors symmetrically, every result that
`groupLess a b` returns is the result of the reference comparator: fewer keys,
then fewer aggregates, then fewer members, then the first key position that
the ordering decides, then the first such aggregate position, then the
lexicographic comparison of the member sequences. -/
theorem groupLess_refines_reference (Less : Val → Val → Bool × Option String)
    (herr : LessErrSymm Less) (a b : groupResult) (r : Bool)
    (h : groupLess Less a b = some r) : refLess Less a b = some r := by
  rw [← groupLess_eq_refLess herr]
  exact h

/-- Witness of C6 on the example of the spec: one key, one aggregate and two
members each, keys "blue" and "red"; blue sorts first although its members are
the larger ones. -/
theorem groupLess_refines_reference_witness :
    LessErrSymm sampleLess ∧
    groupLess sampleLess
      { keys := [{ key := strVal "blue", attr := "color" }],
        aggregates := [{ key := intVal 2, attr := "count" }], uids := [3, 4] }
      { keys := [{ key := strVal "red", attr := "color" }],
        aggregates := [{ key := intVal 2, attr := "count" }], uids := [1, 2] } = some true ∧
    refLess sampleLess
      { keys := [{ key := strVal "blue", attr := "color" }],
        aggregates := [{ key := intVal 2, attr := "count" }], uids := [3, 4] }
      { keys := [{ key := strVal "red", attr := "color" }],
        aggregates := [{ key := intVal 2, attr := "count" }], uids := [1, 2] } = some true :=
  ⟨sampleLess_errSymm, by decide,
    groupLess_refines_reference sampleLess sampleLess_errSymm _ _ true (by decide)⟩

/-! ## C8: the count aggregate -/

/-- C8: for a child that requests a count, also when it names an aggregation
function, `aggregateChild` appends one aggregate labelled "count" whose value is
the integer number of member identifiers, and changes nothing else. -/
theorem aggregateChild_count {TV A : Type} (isAggregatorFn : String → Bool)
    (ops : aggregator A) (convertWithBestEffort : TV → String → Except String Val)
    (grp : groupResult) (child : SubGraph TV) (h : child.Params.DoCount = true) :
    aggregateChild isAggregatorFn ops convertWithBestEffort grp child =
      some { keys := grp.keys, uids := grp.uids,
             aggregates := grp.aggregates ++
               [{ attr := "count",
                  key := { Tid := TypeID.IntID, Value := Value.int grp.uids.length } }] } := by
  simp [aggregateChild, h]

/-- Witness of C8: a child with the count flag that also names `sum`, on a group
of two members that already has an aggregate. -/
theorem aggregateChild_count_witness :
    aggregateChild sampleIsAggregatorFn sumAggregator sampleConvert
      { keys := [{ key := strVal "red", attr := "color" }],
        aggregates := [{ key := intVal 7, attr := "sum(weight)" }], uids := [1, 2] }
      { Attr := "weight", Params := { ignoreResult := false, DoCount := true },
        SrcFunc := ["sum"], SrcUIDs := [1, 2], DestUIDs := [], uidMatrix := [],
        values := [intVal 3, intVal 4] } =
      some { keys := [{ key := strVal "red", attr := "color" }],
             aggregates := [{ key := intVal 7, attr := "sum(weight)" },
                            { key := intVal 2, attr := "count" }],
             uids := [1, 2] } :=
  aggregateChild_count sampleIsAggregatorFn sumAggregator sampleConvert
    { keys := [{ key := strVal "red", attr := "color" }],
      aggregates := [{ key := intVal 7, attr := "sum(weight)" }], uids := [1, 2] }
    { Attr := "weight", Params := { ignoreResult := false, DoCount := true },
      SrcFunc := ["sum"], SrcUIDs := [1, 2], DestUIDs := [], uidMatrix := [],
      values := [intVal 3, intVal 4] } rfl

/-! ## C9: the values fed to the accumulator -/

theorem Search_loop_eq (f : Nat → Bool) (k n : Nat) (hf : ∀ h, h < n → (f h = true ↔ k ≤ h)) :
    ∀ fuel i j, i ≤ k → k ≤ j → j ≤ n → j - i ≤ fuel → Search.loop f fuel i j = k := by
  intro fuel
  induction fuel with
  | zero =>
    intro i j h1 h2 _ h4
    simp only [Search.loop]
    omega
  | succ fuel ih =>
    intro i j h1 h2 h3 h4
    simp only [Search.loop]
    by_cases hij : i < j
    · simp only [hij, if_true]
      have hlt : (i + j) / 2 < j := by omega
      have hge : i ≤ (i + j) / 2 := by omega
      by_cases hfh : f ((i + j) / 2) = true
      · have hk := (hf _ (by omega)).1 hfh
        simp only [hfh, Bool.not_true, Bool.false_eq_true, if_false]
        exact ih i _ h1 hk (by omega) (by omega)
      · have hk : ¬ k ≤ (i + j) / 2 := fun h => hfh ((hf _ (by omega)).2 h)
        simp only [Bool.not_eq_true] at hfh
        simp only [hfh, Bool.not_false, if_true]
        exact ih _ j (by omega) h2 h3 (by omega)
    · simp only [hij, if_false]
      omega

theorem sorted_ge_iff_countP_le (uid : Nat) (l : List Nat) (hs : List.Sorted (· ≤ ·) l) :
    ∀ h, h < l.length → (uid ≤ l.getD h 0 ↔ l.countP (fun x => decide (x < uid)) ≤ h) := by
  induction l with
  | nil => intro h hh; simp at hh
  | cons a as ih =>
    have hmin := List.rel_of_sorted_cons hs
    have hs1 := List.Sorted.of_cons hs
    intro h hh
    by_cases ha : a < uid
    · have hc : (a :: as).countP (fun x => decide (x < uid)) =
          as.countP (fun x => decide (x < uid)) + 1 := by
        simp [List.countP_cons, ha]
      rw [hc]
      cases h with
      | zero =>
        rw [List.getD_cons_zero]
        omega
      | succ h =>
        have := ih hs1 h (by simpa using hh)
        rw [List.getD_cons_succ]
        omega
    · have hz : as.countP (fun x => decide (x < uid)) = 0 := by
        rw [List.countP_eq_zero]
        intro x hx
        have := hmin x hx
        simp only [decide_eq_true_eq]
        omega
      have hc : (a :: as).countP (fun x => decide (x < uid)) = 0 := by
        simp [List.countP_cons, ha, hz]
      rw [hc]
      cases h with
      | zero =>
        rw [List.getD_cons_zero]
        omega
      | succ h =>
        have hlt : h < as.length := by simpa using hh
        have := (ih hs1 h hlt).2 (by omega)
        rw [List.getD_cons_succ]
        omega

theorem Search_eq_countP (uid : Nat) (l : List Nat) (hs : List.Sorted (· ≤ ·) l) :
    Search l.length (fun i => decide (l.getD i 0 ≥ uid)) =
      l.countP (fun x => decide (x < uid)) := by
  unfold Search
  apply Search_loop_eq _ _ l.length
  · intro h hh
    simp only [ge_iff_le, decide_eq_true_eq]
    exact sorted_ge_iff_countP_le uid l hs h hh
  · exact Nat.zero_le _
  · exact List.countP_le_length _
  · exact Nat.le_refl _
  · omega

theorem sourceValue_none {TV : Type} (uid : Nat) (l : List Nat) (vs : List TV)
    (h : uid ∉ l) : sourceValue uid l vs = none := by
  induction l generalizing vs with
  | nil => simp [sourceValue]
  | cons a as ih =>
    cases vs with
    | nil => simp [sourceValue]
    | cons v vs =>
      have h1 : a ≠ uid := fun e => h (by simp [e])
      have h2 : uid ∉ as := fun e => h (List.mem_cons_of_mem _ e)
      simp [sourceValue, h1, ih vs h2]

/-- What the binary search finds in a sorted source list is the source value. -/
theorem search_finds_sourceValue {TV : Type} (uid : Nat) (l : List Nat) (vs : List TV)
    (hs : List.Sorted (· ≤ ·) l) (hl : vs.length = l.length) :
    (l.countP (fun x => decide (x < uid)) = l.length ∨
        l.getD (l.countP (fun x => decide (x < uid))) 0 ≠ uid →
      sourceValue uid l vs = none) ∧
    (¬ (l.countP (fun x => decide (x < uid)) = l.length ∨
        l.getD (l.countP (fun x => decide (x < uid))) 0 ≠ uid) →
      ∃ v, vs[l.countP (fun x => decide (x < uid))]? = some v ∧
        sourceValue uid l vs = some v) := by
  induction l generalizing vs with
  | nil =>
    cases vs with
    | nil => simp [sourceValue]
    | cons v vs => simp at hl
  | cons a as ih =>
    cases vs with
    | nil => simp at hl
    | cons v vs =>
      have hmin := List.rel_of_sorted_cons hs
      have hs1 := List.Sorted.of_cons hs
      have hl1 : vs.length = as.length := by simpa using hl
      by_cases ha : a < uid
      · have hne : a ≠ uid := by omega
        have hc : (a :: as).countP (fun x => decide (x < uid)) =
            as.countP (fun x => decide (x < uid)) + 1 := by
          simp [List.countP_cons, ha]
        rw [hc]
        simp only [List.length_cons, Nat.add_right_cancel_iff, List.getD_cons_succ,
          List.getElem?_cons_succ, sourceValue, hne, if_false]
        exact ih vs hs1 hl1
      · have hz : as.countP (fun x => decide (x < uid)) = 0 := by
          rw [List.countP_eq_zero]
          intro x hx
          have := hmin x hx
          simp only [decide_eq_true_eq]
          omega
        have hc : (a :: as).countP (fun x => decide (x < uid)) = 0 := by
          simp [List.countP_cons, ha, hz]
        rw [hc]
        by_cases hau : a = uid
        · subst hau
          simp [sourceValue]
        · have hnot : uid ∉ a :: as := by
            intro hm
            rcases List.mem_cons.1 hm with e | e
            · exact hau e.symm
            · have := hmin uid e
              omega
          simp [sourceValue_none uid _ _ hnot, hau]

theorem step_eq_coerced {TV A : Type} (ops : aggregator A)
    (convertWithBestEffort : TV → String → Except String Val) (child : SubGraph TV)
    (hs : List.Sorted (· ≤ ·) child.SrcUIDs) (hl : child.values.length = child.SrcUIDs.length)
    (ag : A) (uid : Nat) :
    aggregateGroup.step ops convertWithBestEffort child ag uid =
      some (match coerced convertWithBestEffort child uid with
        | some val => ops.Apply ag val
        | none => ag) := by
  unfold aggregateGroup.step coerced
  simp only [Search_eq_countP uid _ hs]
  have key := search_finds_sourceValue uid child.SrcUIDs child.values hs hl
  by_cases hc : child.SrcUIDs.countP (fun x => decide (x < uid)) = child.SrcUIDs.length ∨
      child.SrcUIDs.getD (child.SrcUIDs.countP (fun x => decide (x < uid))) 0 ≠ uid
  · rw [if_pos hc, key.1 hc]
  · rw [if_neg hc]
    obtain ⟨v, hv1, hv2⟩ := key.2 hc
    rw [hv1, hv2]
    dsimp only
    cases convertWithBestEffort v child.Attr <;> rfl

theorem foldlM_steps {TV A : Type} (ops : aggregator A)
    (convertWithBestEffort : TV → String → Except String Val) (child : SubGraph TV)
    (hs : List.Sorted (· ≤ ·) child.SrcUIDs) (hl : child.values.length = child.SrcUIDs.length)
    (uids : List Nat) (ag : A) :
    uids.foldlM (aggregateGroup.step ops convertWithBestEffort child) ag =
      some ((uids.filterMap (coerced convertWithBestEffort child)).foldl ops.Apply ag) := by
  induction uids generalizing ag with
  | nil => rfl
  | cons uid uids ih =>
    rw [List.foldlM_cons, step_eq_coerced ops convertWithBestEffort child hs hl]
    simp only [Option.bind_eq_bind, Option.some_bind, List.filterMap_cons]
    rw [ih]
    cases coerced convertWithBestEffort child uid <;> rfl

/-- C9: for a child that names a function, with a source list sorted ascending
and a value list of the same length, `aggregateGroup` returns (without
aborting) the value of the accumulator fed, in member order, with the coerced
source values of the members that occur in the source list and whose coercion
succeeds; the other members contribute nothing. -/
theorem aggregateGroup_present_members {TV A : Type} (ops : aggregator A)
    (convertWithBestEffort : TV → String → Except String Val)
    (grp : groupResult) (child : SubGraph TV) (name : String) (rest : List String)
    (hf : child.SrcFunc = name :: rest)
    (hs : List.Sorted (· ≤ ·) child.SrcUIDs) (hl : child.values.length = child.SrcUIDs.length) :
    aggregateGroup ops convertWithBestEffort grp child =
      some (ops.Value
        ((fedValues convertWithBestEffort grp child).foldl ops.Apply (ops.init name))) := by
  unfold aggregateGroup fedValues
  rw [hf]
  simp only [foldlM_steps ops convertWithBestEffort child hs hl, Option.map_some']

/-- Witness of C9: `sum(weight)` over the members 1, 2, 3, 4 when the source list
holds 1, 3 and 4 and the value of 3 is not a number: member 2 is missing,
member 3 fails the coercion, and the sum is that of the members 1 and 4. -/
theorem aggregateGroup_present_members_witness :
    List.Sorted (· ≤ ·) weightChild.SrcUIDs ∧
    fedValues sampleConvert fourGroup weightChild = [intVal 10, intVal 5] ∧
    aggregateGroup sumAggregator sampleConvert fourGroup weightChild =
      some (.ok (intVal 15)) :=
  ⟨by decide, by decide,
    (aggregateGroup_present_members sumAggregator sampleConvert fourGroup weightChild
      "sum" [] rfl (by decide) rfl).trans rfl⟩

/-! ## C20: the number of groups -/

theorem length_choices (us : List uniq) :
    (choices us).length = (us.map (fun u => u.elements.length)).prod := by
  induction us with
  | nil => simp [choices]
  | cons u rest ih =>
    simp only [choices, List.length_flatMap, List.length_map, List.map_cons, List.prod_cons,
      Function.comp_def, ih]
    simp [List.sum_const_nat, List.map_const']

theorem choices_eq_nil_of_hollow (us : List uniq) (h : ∃ u ∈ us, u.elements = []) :
    choices us = [] := by
  have hl : (choices us).length = 0 := by
    rw [length_choices]
    obtain ⟨u, hu, he⟩ := h
    apply List.prod_eq_zero
    exact List.mem_map.2 ⟨u, hu, by simp [he]⟩
  exact List.length_eq_zero.1 hl

/-- C20: `formGroups` started with an empty list and no keys produces one group
per combination of one entry from each bucket, whatever the running
intersection holds: the number of groups is the product of the numbers of
entries of the buckets; an index with no attribute gives the single group with no
key and no member, and an index with a bucket without entry gives no group. -/
theorem formGroups_count (d : dedup) :
    ∃ res, formGroups d [] [] [] = some res ∧
      res = (choices d.groups).map (groupOf d.groups) ∧
      res.length = (d.groups.map (fun u => u.elements.length)).prod ∧
      (d.groups = [] → res = [{ keys := [], aggregates := [], uids := [] }]) ∧
      ((∃ u ∈ d.groups, u.elements = []) → res = []) := by
  refine ⟨_, formGroups_start d, rfl, ?_, ?_, ?_⟩
  · rw [List.length_map, length_choices]
  · intro h
    rw [h]
    rfl
  · intro h
    rw [choices_eq_nil_of_hollow _ h]
    rfl

/-- Witness of C20: four groups for two buckets of two entries, one group for the
empty index, none for an index with a bucket without entry. -/
theorem formGroups_count_witness :
    (∃ res, formGroups crossIndex [] [] [] = some res ∧ res.length = 4) ∧
    formGroups { groups := [] } [] [] [] = some [{ keys := [], aggregates := [], uids := [] }] ∧
    formGroups hollowIndex [] [] [] = some [] :=
  ⟨by
    obtain ⟨res, h1, _, h3, _, _⟩ := formGroups_count crossIndex
    exact ⟨res, h1, h3.trans (by decide)⟩,
   by
    obtain ⟨res, h1, _, _, h4, _⟩ := formGroups_count { groups := [] }
    rw [h1, h4 rfl],
   by
    obtain ⟨res, h1, _, _, _, h5⟩ := formGroups_count hollowIndex
    rw [h1, h5 ⟨_, List.mem_cons_of_mem _ (List.mem_singleton_self _), rfl⟩]⟩

/-! ## C16: no grouping attribute -/

/-- C16, refuted as stated: on the empty index `formGroups` started with an empty
list and no keys does not leave the result list empty. -/
theorem empty_index_yields_a_group :
    formGroups { groups := [] } [] [] [] ≠ some [] := by
  decide

theorem aggregate_no_child {TV A : Type} (isAggregatorFn : String → Bool)
    (ops : aggregator A) (convertWithBestEffort : TV → String → Except String Val)
    (Children : List (SubGraph TV)) (h : ∀ c ∈ Children, c.Params.ignoreResult = true)
    (grp : groupResult) :
    processGroupBy.aggregate isAggregatorFn ops convertWithBestEffort Children grp = some grp := by
  unfold processGroupBy.aggregate
  induction Children with
  | nil => rfl
  | cons c cs ih =>
    rw [List.foldlM_cons]
    simp only [h c (List.mem_cons_self _ _), if_true, Option.bind_eq_bind, Option.some_bind]
    exact ih (fun x hx => h x (List.mem_cons_of_mem _ hx))

/-- C16, amended: when the index is empty (no grouping attribute) and no child is
an aggregation child there is exactly one group, with no key, no aggregate and
no member: `formGroups` on the empty index appends it, and the stage (up to the
sort) returns it. -/
theorem formGroups_empty_index {TV A : Type} (convertTo : TV → Except String Val)
    (Marshal : Val → Option String) (isAggregatorFn : String → Bool) (ops : aggregator A)
    (convertWithBestEffort : TV → String → Except String Val)
    (Children : List (SubGraph TV))
    (hagg : ∀ c ∈ Children, c.Params.ignoreResult = true)
    (hidx : processGroupBy.index convertTo Marshal Children = some { groups := [] }) :
    formGroups { groups := [] } [] [] [] =
      some [{ keys := [], aggregates := [], uids := [] }] ∧
    processGroupBy.groups convertTo Marshal isAggregatorFn ops convertWithBestEffort Children =
      some [{ keys := [], aggregates := [], uids := [] }] := by
  refine ⟨rfl, ?_⟩
  unfold processGroupBy.groups
  rw [hidx]
  have e : formGroups { groups := [] } [] [] [] =
      some [{ keys := [], aggregates := [], uids := [] }] := rfl
  simp only [e]
  simp [processGroupBy.aggregateAll,
    aggregate_no_child isAggregatorFn ops convertWithBestEffort Children hagg]

/-- Witness of the amended C16: a single grouping child without any value. -/
theorem formGroups_empty_index_witness :
    formGroups { groups := [] } [] [] [] =
      some [{ keys := [], aggregates := [], uids := [] }] ∧
    processGroupBy.groups sampleConvertTo sampleMarshal sampleIsAggregatorFn sumAggregator
        sampleConvert
        [{ Attr := "color", Params := { ignoreResult := true, DoCount := false },
           SrcFunc := [], SrcUIDs := [], DestUIDs := [], uidMatrix := [], values := [] }] =
      some [{ keys := [], aggregates := [], uids := [] }] :=
  formGroups_empty_index sampleConvertTo sampleMarshal sampleIsAggregatorFn sumAggregator
    sampleConvert
    [{ Attr := "color", Params := { ignoreResult := true, DoCount := false },
       SrcFunc := [], SrcUIDs := [], DestUIDs := [], uidMatrix := [], values := [] }]
    (by decide) rfl

/-! ## C19: when the fatal error is reached -/

theorem andThen_eq_none {p q : Option Bool} : andThen p q = none ↔ p = none ∧ q = none := by
  cases p <;> simp [andThen]

theorem values_none_iff {Less : Val → Val → Bool × Option String} (herr : LessErrSymm Less)
    (xs ys : List groupPair) :
    groupLess.values Less xs ys = none ↔ undecided Less xs ys := by
  induction xs generalizing ys with
  | nil => cases ys <;> simp [groupLess.values, undecided]
  | cons x xs ih =>
    cases ys with
    | nil => simp [groupLess.values, undecided]
    | cons y ys =>
      rw [values_cons, andThen_eq_none, ih ys, step_eq_established herr]
      simp only [undecided, List.zip_cons_cons, List.mem_cons, forall_eq_or_imp]
      by_cases h1 : established Less x.key y.key = true
      · simp [h1]
      · by_cases h2 : established Less y.key x.key = true
        · simp [h1, h2]
        · simp [h1, h2]

theorem uids_none_iff (xs ys : List Nat) (h : xs.length = ys.length) (s : Nat) :
    groupLess.uids xs ys s s = none ↔ xs = ys := by
  induction xs generalizing ys s with
  | nil =>
    cases ys with
    | nil => simp [uids_nil]
    | cons y ys => simp at h
  | cons x xs ih =>
    cases ys with
    | nil => simp at h
    | cons y ys =>
      rw [uids_cons, andThen_eq_none, cmpLen_eq_none, ih ys (by simpa using h)]
      simp

theorem uids_some_decided (xs ys : List Nat) (h : xs.length = ys.length) (s : Nat) (r : Bool)
    (hr : groupLess.uids xs ys s s = some r) :
    ∃ pre x y xs1 ys1, xs = pre ++ x :: xs1 ∧ ys = pre ++ y :: ys1 ∧ x ≠ y ∧
      r = decide (x < y) := by
  induction xs generalizing ys s with
  | nil =>
    cases ys with
    | nil => simp [uids_nil] at hr
    | cons y ys => simp at h
  | cons x xs ih =>
    cases ys with
    | nil => simp at h
    | cons y ys =>
      rw [uids_cons] at hr
      rcases Nat.lt_trichotomy x y with hxy | hxy | hxy
      · have hc : cmpLen x y = some true := by simp [cmpLen, hxy]
        rw [hc] at hr
        simp only [andThen, Option.some.injEq] at hr
        exact ⟨[], x, y, xs, ys, rfl, rfl, by omega, by simp [← hr, hxy]⟩
      · subst hxy
        have hc : cmpLen x x = none := cmpLen_eq_none.2 rfl
        rw [hc] at hr
        obtain ⟨pre, a, b, xs1, ys1, e1, e2, hne, hdec⟩ :=
          ih ys (by simpa using h) _ hr
        exact ⟨x :: pre, a, b, xs1, ys1, by simp [e1], by simp [e2], hne, hdec⟩
      · have hc : cmpLen x y = some false := by
          have h1 : ¬ x < y := by omega
          have h2 : x ≠ y := by omega
          simp [cmpLen, h1, h2]
        rw [hc] at hr
        simp only [andThen, Option.some.injEq] at hr
        have h1 : ¬ x < y := by omega
        exact ⟨[], x, y, xs, ys, rfl, rfl, by omega, by simp [← hr, h1]⟩

/-- When the identifier loop runs to its end on equal sequences, the comparison
that follows it is between the running sums. -/
theorem uids_same_sums (xs : List Nat) (s t : Nat) :
    groupLess.uids xs xs s t =
      if xs.foldl (fun s x => (s + x) % 2 ^ 64) s < xs.foldl (fun s x => (s + x) % 2 ^ 64) t
      then some true
      else if xs.foldl (fun s x => (s + x) % 2 ^ 64) s ≠ xs.foldl (fun s x => (s + x) % 2 ^ 64) t
      then some false
      else none := by
  induction xs generalizing s t with
  | nil => simp [groupLess.uids]
  | cons x xs ih =>
    simp only [groupLess.uids, lt_self_iff_false, gt_iff_lt, if_false, List.foldl_cons]
    exact ih _ _

/-- C19: when `types.Less` reports its errors symmetrically, `groupLess a b`
reaches the fatal error exactly when the two groups have as many keys,
aggregates and members, no key position and no aggregate position is decided
by the ordering in either direction, and the member sequences are equal; the
running sums are then equal, and every result that the identifier stage
returns is decided at the first position where the two sequences differ, never
by the comparison of the sums. -/
theorem groupLess_fatal_iff (Less : Val → Val → Bool × Option String)
    (herr : LessErrSymm Less) (a b : groupResult) :
    (groupLess Less a b = none ↔
      a.keys.length = b.keys.length ∧ a.aggregates.length = b.aggregates.length ∧
      a.uids.length = b.uids.length ∧
      undecided Less a.keys b.keys ∧ undecided Less a.aggregates b.aggregates ∧
      a.uids = b.uids) ∧
    (groupLess Less a b = none → runningSum a.uids = runningSum b.uids) ∧
    (a.uids.length = b.uids.length → ∀ r, groupLess.uids a.uids b.uids 0 0 = some r →
      ∃ pre x y xs1 ys1, a.uids = pre ++ x :: xs1 ∧ b.uids = pre ++ y :: ys1 ∧ x ≠ y ∧
        r = decide (x < y)) := by
  have main : groupLess Less a b = none ↔
      a.keys.length = b.keys.length ∧ a.aggregates.length = b.aggregates.length ∧
      a.uids.length = b.uids.length ∧
      undecided Less a.keys b.keys ∧ undecided Less a.aggregates b.aggregates ∧
      a.uids = b.uids := by
    rw [groupLess_chain]
    simp only [andThen_eq_none, cmpLen_eq_none, values_none_iff herr]
    constructor
    · rintro ⟨h1, h2, h3, h4, h5, h6⟩
      exact ⟨h1, h2, h3, h4, h5, (uids_none_iff _ _ h3 0).1 h6⟩
    · rintro ⟨h1, h2, h3, h4, h5, h6⟩
      exact ⟨h1, h2, h3, h4, h5, (uids_none_iff _ _ h3 0).2 h6⟩
  refine ⟨main, ?_, ?_⟩
  · intro h
    rw [(main.1 h).2.2.2.2.2]
  · intro hl r hr
    exact uids_some_decided _ _ hl 0 r hr

/-- Witness of C19 with the sample ordering: two groups with the same keys and
the same members reach the fatal error. -/
theorem groupLess_fatal_iff_witness :
    LessErrSymm sampleLess ∧
    groupLess sampleLess
      { keys := [{ key := uidVal 10, attr := "friend" }], aggregates := [], uids := [1, 2] }
      { keys := [{ key := uidVal 10, attr := "friend" }], aggregates := [], uids := [1, 2] } =
      none :=
  ⟨sampleLess_errSymm,
    ((groupLess_fatal_iff sampleLess sampleLess_errSymm
      { keys := [{ key := uidVal 10, attr := "friend" }], aggregates := [], uids := [1, 2] }
      { keys := [{ key := uidVal 10, attr := "friend" }], aggregates := [], uids := [1, 2] }).1).2
      ⟨rfl, rfl, rfl, by decide, by decide, rfl⟩⟩

/-! ## C17: what aggregateChild changes -/

theorem Search_loop_bounds (f : Nat → Bool) :
    ∀ fuel i j, i ≤ j → i ≤ Search.loop f fuel i j ∧ Search.loop f fuel i j ≤ j := by
  intro fuel
  induction fuel with
  | zero =>
    intro i j h
    simp only [Search.loop]
    omega
  | succ fuel ih =>
    intro i j h
    simp only [Search.loop]
    by_cases hij : i < j
    · simp only [hij, if_true]
      by_cases hfh : f ((i + j) / 2) = true
      · simp only [hfh, Bool.not_true, Bool.false_eq_true, if_false]
        have := ih i ((i + j) / 2) (by omega)
        omega
      · simp only [Bool.not_eq_true] at hfh
        simp only [hfh, Bool.not_false, if_true]
        have := ih ((i + j) / 2 + 1) j (by omega)
        omega
    · simp only [hij, if_false]
      omega

theorem Search_le (n : Nat) (f : Nat → Bool) : Search n f ≤ n :=
  (Search_loop_bounds f n 0 n (Nat.zero_le _)).2

theorem step_returns {TV A : Type} (ops : aggregator A)
    (convertWithBestEffort : TV → String → Except String Val) (child : SubGraph TV)
    (hl : child.SrcUIDs.length ≤ child.values.length) (ag : A) (uid : Nat) :
    ∃ ag1, aggregateGroup.step ops convertWithBestEffort child ag uid = some ag1 := by
  unfold aggregateGroup.step
  have hle := Search_le child.SrcUIDs.length (fun i => decide (child.SrcUIDs.getD i 0 ≥ uid))
  generalize Search child.SrcUIDs.length (fun i => decide (child.SrcUIDs.getD i 0 ≥ uid)) = idx
    at hle
  dsimp only
  split
  · exact ⟨_, rfl⟩
  · rename_i hc
    have hlt : idx < child.values.length := by
      have : idx ≠ child.SrcUIDs.length := fun e => hc (Or.inl e)
      omega
    rw [List.getElem?_eq_getElem hlt]
    dsimp only
    cases convertWithBestEffort child.values[idx] child.Attr <;> exact ⟨_, rfl⟩

theorem foldlM_returns {α β : Type} (G : β → α → Option β)
    (h : ∀ b a, ∃ b1, G b a = some b1) (l : List α) (b : β) :
    ∃ r, l.foldlM G b = some r := by
  induction l generalizing b with
  | nil => exact ⟨b, rfl⟩
  | cons a l ih =>
    obtain ⟨b1, hb1⟩ := h b a
    rw [List.foldlM_cons, hb1]
    exact ih b1

/-- With a value for every source identifier `aggregateGroup` does not panic. -/
theorem aggregateGroup_returns {TV A : Type} (ops : aggregator A)
    (convertWithBestEffort : TV → String → Except String Val)
    (grp : groupResult) (child : SubGraph TV) (name : String) (rest : List String)
    (hf : child.SrcFunc = name :: rest) (hl : child.SrcUIDs.length ≤ child.values.length) :
    ∃ out, aggregateGroup ops convertWithBestEffort grp child = some out := by
  unfold aggregateGroup
  rw [hf]
  obtain ⟨r, hr⟩ := foldlM_returns (aggregateGroup.step ops convertWithBestEffort child)
    (step_returns ops convertWithBestEffort child hl) grp.uids (ops.init name)
  refine ⟨ops.Value r, ?_⟩
  simp only [hr, Option.map_some']

/-- C17: for a child with a value for every source identifier, `aggregateChild`
returns the group with the same keys and members and with the earlier
aggregates followed by at most one new aggregate: none when the child neither
counts nor names a recognised function, none when the accumulator reports an
error, and the accumulator's value labelled `function(attribute)` when it
succeeds. -/
theorem aggregateChild_frame {TV A : Type} (isAggregatorFn : String → Bool)
    (ops : aggregator A) (convertWithBestEffort : TV → String → Except String Val)
    (grp : groupResult) (child : SubGraph TV)
    (hl : child.SrcUIDs.length ≤ child.values.length) :
    ∃ grp1, aggregateChild isAggregatorFn ops convertWithBestEffort grp child = some grp1 ∧
      grp1.keys = grp.keys ∧ grp1.uids = grp.uids ∧
      (grp1.aggregates = grp.aggregates ∨ ∃ p, grp1.aggregates = grp.aggregates ++ [p]) ∧
      (child.Params.DoCount = false →
        (child.SrcFunc = [] ∨ ∃ fn rest, child.SrcFunc = fn :: rest ∧ isAggregatorFn fn = false) →
        grp1 = grp) ∧
      (child.Params.DoCount = false → ∀ fn rest, child.SrcFunc = fn :: rest →
        isAggregatorFn fn = true →
        ∃ out, aggregateGroup ops convertWithBestEffort grp child = some out ∧
          match out with
          | .error _ => grp1 = grp
          | .ok finalVal =>
            grp1 = { keys := grp.keys, uids := grp.uids,
                     aggregates := grp.aggregates ++
                       [{ attr := fn ++ "(" ++ child.Attr ++ ")", key := finalVal }] }) := by
  by_cases hc : child.Params.DoCount = true
  · refine ⟨{ keys := grp.keys, uids := grp.uids,
               aggregates := grp.aggregates ++
                 [{ attr := "count",
                    key := { Tid := TypeID.IntID, Value := Value.int grp.uids.length } }] },
      by simp [aggregateChild, hc], rfl, rfl, Or.inr ⟨_, rfl⟩, ?_, ?_⟩
    · intro h
      rw [hc] at h
      exact absurd h (by simp)
    · intro h
      rw [hc] at h
      exact absurd h (by simp)
  · have hc1 : child.Params.DoCount = false := by simpa using hc
    cases hf : child.SrcFunc with
    | nil =>
      refine ⟨grp, by simp [aggregateChild, hc1, hf], rfl, rfl, Or.inl rfl, fun _ _ => rfl, ?_⟩
      intro _ fn rest h
      exact absurd h (by simp)
    | cons fn rest =>
      by_cases ha : isAggregatorFn fn = true
      · obtain ⟨out, hout⟩ :=
          aggregateGroup_returns ops convertWithBestEffort grp child fn rest hf hl
        cases out with
        | error e =>
          refine ⟨grp, by simp [aggregateChild, hc1, hf, ha, hout], rfl, rfl, Or.inl rfl,
            fun _ _ => rfl, ?_⟩
          intro _ fn1 rest1 h _
          exact ⟨_, hout, rfl⟩
        | ok v =>
          refine ⟨{ keys := grp.keys, uids := grp.uids,
                    aggregates := grp.aggregates ++
                      [{ attr := fn ++ "(" ++ child.Attr ++ ")", key := v }] },
            by simp [aggregateChild, hc1, hf, ha, hout], rfl, rfl, Or.inr ⟨_, rfl⟩, ?_, ?_⟩
          · rintro _ (h | ⟨fn1, rest1, h1, h2⟩)
            · exact absurd h (by simp)
            · injection h1 with e1 e2
              subst e1
              rw [ha] at h2
              exact absurd h2 (by simp)
          · intro _ fn1 rest1 h _
            injection h with e1 e2
            subst e1
            exact ⟨_, hout, rfl⟩
      · have ha1 : isAggregatorFn fn = false := by simpa using ha
        refine ⟨grp, by simp [aggregateChild, hc1, hf, ha1], rfl, rfl, Or.inl rfl,
          fun _ _ => rfl, ?_⟩
        intro _ fn1 rest1 h h2
        injection h with e1 e2
        subst e1
        rw [ha1] at h2
        exact absurd h2 (by simp)

/-- Witness of C17: `sum(weight)` on the group of four members appends the one
aggregate `sum(weight)` with the value 15. -/
theorem aggregateChild_frame_witness :
    weightChild.SrcUIDs.length ≤ weightChild.values.length ∧
    aggregateChild sampleIsAggregatorFn sumAggregator sampleConvert fourGroup weightChild =
      some { keys := [{ key := strVal "red", attr := "color" }],
             aggregates := [{ key := intVal 15, attr := "sum(weight)" }],
             uids := [1, 2, 3, 4] } ∧
    ∃ grp1, aggregateChild sampleIsAggregatorFn sumAggregator sampleConvert fourGroup
        weightChild = some grp1 ∧
      grp1.keys = fourGroup.keys ∧ grp1.uids = fourGroup.uids :=
  ⟨by decide, by decide,
    (aggregateChild_frame sampleIsAggregatorFn sumAggregator sampleConvert fourGroup weightChild
      (by decide)).elim (fun g h => ⟨g, h.1, h.2.1, h.2.2.1⟩)⟩

/-! ## What one call of addValue does -/

theorem find_some (groups : List uniq) (attr : String) :
    ∀ n i, addValue.find groups attr n = some i →
      i < n ∧ ∃ u, groups[i]? = some u ∧ u.attr = attr := by
  intro n
  induction n with
  | zero => intro i h; simp [addValue.find] at h
  | succ n ih =>
    intro i h
    simp only [addValue.find] at h
    cases hg : groups[n]? with
    | none =>
      rw [hg] at h
      obtain ⟨h1, h2⟩ := ih i h
      exact ⟨by omega, h2⟩
    | some it =>
      rw [hg] at h
      by_cases ha : attr = it.attr
      · simp only [ha, if_true, Option.some.injEq] at h
        subst h
        exact ⟨by omega, it, hg, ha.symm⟩
      · simp only [ha, if_false] at h
        obtain ⟨h1, h2⟩ := ih i h
        exact ⟨by omega, h2⟩

theorem find_none (groups : List uniq) (attr : String) :
    ∀ n, addValue.find groups attr n = none →
      ∀ i, i < n → ∀ u, groups[i]? = some u → u.attr ≠ attr := by
  intro n
  induction n with
  | zero => intro _ i hi; omega
  | succ n ih =>
    intro h i hi u hu
    simp only [addValue.find] at h
    cases hg : groups[n]? with
    | none =>
      rw [hg] at h
      have hn : i ≠ n := by
        intro e
        subst e
        rw [hg] at hu
        exact absurd hu (by simp)
      exact ih h i (by omega) u hu
    | some it =>
      rw [hg] at h
      by_cases ha : attr = it.attr
      · simp [ha] at h
      · simp only [ha, if_false] at h
        by_cases hn : i = n
        · subst hn
          rw [hg] at hu
          injection hu with e
          subst e
          exact fun e => ha e.symm
        · exact ih h i (by omega) u hu

theorem find_none_iff (d : dedup) (attr : String) :
    addValue.find d.groups attr d.groups.length = none ↔ attr ∉ attrsOf d := by
  constructor
  · intro h hm
    obtain ⟨u, hu, he⟩ := List.mem_map.1 hm
    obtain ⟨i, hi⟩ := List.mem_iff_getElem?.1 hu
    have hlt : i < d.groups.length := (List.getElem?_eq_some.1 hi).1
    exact find_none _ _ _ h i hlt u hi he
  · intro h
    cases hf : addValue.find d.groups attr d.groups.length with
    | none => rfl
    | some i =>
      obtain ⟨_, u, hu, he⟩ := find_some _ _ _ _ hf
      exact absurd (List.mem_map.2 ⟨u, List.mem_iff_getElem?.2 ⟨i, hu⟩, he⟩) h

/-- A call for an attribute without bucket appends the bucket, with the one
entry of the call, or with no entry when the marshaling fails. -/
theorem addValue_absent (Marshal : Val → Option String) (d : dedup) (attr : String)
    (value : Val) (uid : Nat) (h : attr ∉ attrsOf d) :
    addValue Marshal d attr value uid =
      { groups := d.groups ++
          [{ attr := attr,
             elements := match keyOf Marshal value uid with
               | none => []
               | some k => [(k, { key := value, entities := [uid] })] }] } := by
  have hf := (find_none_iff d attr).2 h
  unfold addValue keyOf
  simp only [hf, if_true, Option.getD_none, List.length_append, List.length_singleton,
    Nat.add_sub_cancel]
  cases hk : (if value.Tid = TypeID.UidID then some (Nat.repr uid) else Marshal value) with
  | none => rfl
  | some k =>
    simp [addValue.put]

/-- A call for an attribute with a bucket changes the map of that bucket only,
and nothing when the marshaling fails. -/
theorem addValue_present (Marshal : Val → Option String) (d : dedup) (attr : String)
    (value : Val) (uid : Nat) (h : attr ∈ attrsOf d) :
    ∃ i u, i < d.groups.length ∧ d.groups[i]? = some u ∧ u.attr = attr ∧
      addValue Marshal d attr value uid =
        match keyOf Marshal value uid with
        | none => d
        | some k =>
          { groups := d.groups.set i
              { attr := u.attr, elements := addValue.put k value uid u.elements } } := by
  cases hf : addValue.find d.groups attr d.groups.length with
  | none => exact absurd h ((find_none_iff d attr).1 hf)
  | some i =>
    obtain ⟨hi, u, hu, he⟩ := find_some _ _ _ _ hf
    refine ⟨i, u, hi, hu, he, ?_⟩
    unfold addValue keyOf
    simp only [hf, Option.getD_some]
    cases hk : (if value.Tid = TypeID.UidID then some (Nat.repr uid) else Marshal value) with
    | none => simp
    | some k => simp [hu]

theorem attrsOf_addValue (Marshal : Val → Option String) (d : dedup) (attr : String)
    (value : Val) (uid : Nat) :
    attrsOf (addValue Marshal d attr value uid) =
      if attr ∈ attrsOf d then attrsOf d else attrsOf d ++ [attr] := by
  by_cases h : attr ∈ attrsOf d
  · obtain ⟨i, u, hi, hu, he, heq⟩ := addValue_present Marshal d attr value uid h
    rw [heq, if_pos h]
    cases keyOf Marshal value uid with
    | none => rfl
    | some k =>
      simp only [attrsOf, List.map_set]
      apply List.ext_getElem?
      intro j
      rw [List.getElem?_set]
      by_cases hij : i = j
      · subst hij
        have e : d.groups[i] = u := (List.getElem?_eq_some.1 hu).2
        simp [hi, e]
      · simp [hij]
  · rw [addValue_absent Marshal d attr value uid h, if_neg h]
    simp [attrsOf]

/-! ## C18: the order of the attributes -/

theorem foldl_pushNew {α : Type} [DecidableEq α] (l acc : List α) :
    l.foldl (fun acc a => if a ∈ acc then acc else acc ++ [a]) acc =
      acc ++ (firstSeen l).filter (fun x => decide (x ∉ acc)) := by
  induction l generalizing acc with
  | nil => simp [firstSeen]
  | cons a l ih =>
    rw [List.foldl_cons, ih]
    by_cases h : a ∈ acc
    · have e1 : (if a ∈ acc then acc else acc ++ [a]) = acc := if_pos h
      have e2 : (firstSeen (a :: l)).filter (fun x => decide (x ∉ acc)) =
          (firstSeen l).filter (fun x => decide (x ∉ acc)) := by
        have hd : decide (a ∉ acc) = false := by simp [h]
        rw [firstSeen, List.filter_cons, hd, List.filter_filter]
        simp only [Bool.false_eq_true, if_false]
        apply List.filter_congr
        intro x _
        by_cases hx : x ∈ acc
        · simp [hx]
        · have : x ≠ a := fun e => hx (e ▸ h)
          simp [hx, this]
      rw [e1, e2]
    · have e1 : (if a ∈ acc then acc else acc ++ [a]) = acc ++ [a] := if_neg h
      have e2 : (firstSeen (a :: l)).filter (fun x => decide (x ∉ acc)) =
          a :: (firstSeen l).filter (fun x => decide (x ∉ acc ++ [a])) := by
        have hd : decide (a ∉ acc) = true := by simp [h]
        rw [firstSeen, List.filter_cons, hd, List.filter_filter]
        simp only [if_true]
        congr 1
        apply List.filter_congr
        intro x _
        by_cases hx : x ∈ acc
        · simp [hx]
        · by_cases hxa : x = a
          · simp [hxa]
          · simp [hx, hxa]
      rw [e1, e2]
      simp

theorem mem_firstSeen {α : Type} [DecidableEq α] (l : List α) (x : α) :
    x ∈ firstSeen l ↔ x ∈ l := by
  induction l with
  | nil => simp [firstSeen]
  | cons a l ih =>
    by_cases h : x = a
    · simp [firstSeen, h]
    · simp [firstSeen, h, ih]

theorem firstSeen_nodup {α : Type} [DecidableEq α] (l : List α) : (firstSeen l).Nodup := by
  induction l with
  | nil => simp [firstSeen]
  | cons a l ih =>
    simp only [firstSeen, List.nodup_cons]
    exact ⟨by simp [List.mem_filter], ih.filter _⟩

theorem attrsOf_addValues (Marshal : Val → Option String) (d : dedup)
    (calls : List (String × Val × Nat)) :
    attrsOf (addValues Marshal d calls) =
      (calls.map (fun c => c.1)).foldl (fun acc a => if a ∈ acc then acc else acc ++ [a])
        (attrsOf d) := by
  induction calls generalizing d with
  | nil => rfl
  | cons c calls ih =>
    simp only [addValues, List.foldl_cons, List.map_cons] at ih ⊢
    rw [ih, attrsOf_addValue]

/-- C18: from the empty index, after any sequence of `addValue` calls (whether
or not the values marshal) the attribute names of the index are the distinct
attribute names passed, in the order of their first occurrence, hence pairwise
distinct; on any index a call for an attribute already present leaves the
sequence of names unchanged and a call for a new attribute appends it. -/
theorem addValue_attribute_order (Marshal : Val → Option String) :
    (∀ calls : List (String × Val × Nat),
      attrsOf (addValues Marshal { groups := [] } calls) = firstSeen (calls.map (fun c => c.1)) ∧
      (attrsOf (addValues Marshal { groups := [] } calls)).Nodup ∧
      ∀ a, a ∈ attrsOf (addValues Marshal { groups := [] } calls) ↔
        a ∈ calls.map (fun c => c.1)) ∧
    (∀ (d : dedup) (attr : String) (value : Val) (uid : Nat),
      (attr ∈ attrsOf d → attrsOf (addValue Marshal d attr value uid) = attrsOf d) ∧
      (attr ∉ attrsOf d → attrsOf (addValue Marshal d attr value uid) = attrsOf d ++ [attr])) := by
  constructor
  · intro calls
    have e : attrsOf (addValues Marshal { groups := [] } calls) =
        firstSeen (calls.map (fun c => c.1)) := by
      rw [attrsOf_addValues, foldl_pushNew]
      simp [attrsOf]
    rw [e]
    exact ⟨rfl, firstSeen_nodup _, mem_firstSeen _⟩
  · intro d attr value uid
    rw [attrsOf_addValue]
    exact ⟨fun h => if_pos h, fun h => if_neg h⟩

/-- Witness of C18: the calls for color, size, color, size leave the attributes
color and size, in this order. -/
theorem addValue_attribute_order_witness :
    attrsOf redIndex = ["color", "size"] ∧
    attrsOf (addValue sampleMarshal redIndex "color" (strVal "blue") 7) = attrsOf redIndex ∧
    attrsOf (addValue sampleMarshal redIndex "shape" (strVal "round") 7) =
      attrsOf redIndex ++ ["shape"] :=
  ⟨((addValue_attribute_order sampleMarshal).1 _).1.trans (by decide),
   ((addValue_attribute_order sampleMarshal).2 redIndex "color" (strVal "blue") 7).1 (by decide),
   ((addValue_attribute_order sampleMarshal).2 redIndex "shape" (strVal "round") 7).2
     (by decide)⟩

/-! ## C15: a value whose marshaling fails -/

/-- C15, the code at the failing input: on the index where entity 1 is red, a
call for the new attribute size with a value whose marshaling fails appends an
empty bucket; the index is changed, and `formGroups` then produces no group
where it produced the group (red) with member 1 before. -/
theorem addValue_failed_marshal_adds_bucket :
    badVal.Tid ≠ TypeID.UidID ∧ sampleMarshal badVal = none ∧
    addValue sampleMarshal colorIndex "size" badVal 1 =
      { groups := colorIndex.groups ++ [{ elements := [], attr := "size" }] } ∧
    formGroups colorIndex [] [] [] =
      some [{ keys := [{ key := strVal "red", attr := "color" }], aggregates := [],
              uids := [1] }] ∧
    formGroups (addValue sampleMarshal colorIndex "size" badVal 1) [] [] [] = some [] := by
  decide

/-! ## The bucket that a call addresses -/

theorem bucketAt_present (d : dedup) (attr : String) (h : attr ∈ attrsOf d) :
    addValue.find d.groups attr d.groups.length = some (bucketAt d attr) ∧
    bucketAt d attr < d.groups.length ∧
    ∃ u, d.groups[bucketAt d attr]? = some u ∧ u.attr = attr := by
  unfold bucketAt
  cases hf : addValue.find d.groups attr d.groups.length with
  | none => exact absurd h ((find_none_iff d attr).1 hf)
  | some i =>
    obtain ⟨hi, u, hu, he⟩ := find_some _ _ _ _ hf
    exact ⟨rfl, hi, u, hu, he⟩

theorem bucketAt_absent (d : dedup) (attr : String) (h : attr ∉ attrsOf d) :
    bucketAt d attr = d.groups.length := by
  unfold bucketAt
  rw [(find_none_iff d attr).2 h]
  rfl

theorem elementsAt_absent (d : dedup) (attr : String) (h : attr ∉ attrsOf d) :
    elementsAt d (bucketAt d attr) = [] := by
  rw [bucketAt_absent d attr h]
  simp [elementsAt]

/-- The groups of the index after a call whose key is `k`. -/
theorem addValue_groups (Marshal : Val → Option String) (d : dedup) (attr : String)
    (value : Val) (uid : Nat) (k : String) (hk : keyOf Marshal value uid = some k) :
    (addValue Marshal d attr value uid).groups =
      if attr ∈ attrsOf d then
        d.groups.set (bucketAt d attr)
          { attr := attr,
            elements := addValue.put k value uid (elementsAt d (bucketAt d attr)) }
      else
        d.groups ++
          [{ attr := attr,
             elements := addValue.put k value uid (elementsAt d (bucketAt d attr)) }] := by
  by_cases h : attr ∈ attrsOf d
  · obtain ⟨hf, hi, u, hu, he⟩ := bucketAt_present d attr h
    rw [if_pos h]
    have hel : elementsAt d (bucketAt d attr) = u.elements := by simp [elementsAt, hu]
    rw [hel]
    unfold addValue
    have hk1 : (if value.Tid = TypeID.UidID then some (Nat.repr uid) else Marshal value) =
        some k := hk
    simp only [hf, hk1, Option.getD_some]
    simp [hu, he]
  · rw [if_neg h, addValue_absent Marshal d attr value uid h, hk,
      elementsAt_absent d attr h]
    rfl

theorem find_congr (g1 g2 : List uniq) (attr : String)
    (h : ∀ j : Nat, (g1[j]?).map (fun u => u.attr) = (g2[j]?).map (fun u => u.attr)) :
    ∀ n, addValue.find g1 attr n = addValue.find g2 attr n := by
  intro n
  induction n with
  | zero => rfl
  | succ n ih =>
    simp only [addValue.find]
    have hn := h n
    cases h1 : g1[n]? with
    | none =>
      rw [h1] at hn
      cases h2 : g2[n]? with
      | none => exact ih
      | some u2 => rw [h2] at hn; simp at hn
    | some u1 =>
      rw [h1] at hn
      cases h2 : g2[n]? with
      | none => rw [h2] at hn; simp at hn
      | some u2 =>
        rw [h2] at hn
        simp only [Option.map_some', Option.some.injEq] at hn
        simp only [hn, ih]

theorem find_last (gs : List uniq) (u : uniq) :
    addValue.find (gs ++ [u]) u.attr (gs.length + 1) = some gs.length := by
  simp [addValue.find]

/-- A call addresses the same position before and after it. -/
theorem bucketAt_addValue (Marshal : Val → Option String) (d : dedup) (attr : String)
    (value : Val) (uid : Nat) :
    bucketAt (addValue Marshal d attr value uid) attr = bucketAt d attr := by
  by_cases h : attr ∈ attrsOf d
  · obtain ⟨i, u, hi, hu, he, heq⟩ := addValue_present Marshal d attr value uid h
    rw [heq]
    cases keyOf Marshal value uid with
    | none => rfl
    | some k =>
      unfold bucketAt
      simp only [List.length_set]
      rw [find_congr (d.groups.set i _) d.groups attr]
      intro j
      rw [List.getElem?_set]
      by_cases hij : i = j
      · subst hij
        simp [hi, hu]
      · simp [hij]
  · rw [bucketAt_absent d attr h, addValue_absent Marshal d attr value uid h]
    unfold bucketAt
    simp only [List.length_append, List.length_singleton]
    have := find_last d.groups
      { attr := attr,
        elements := match keyOf Marshal value uid with
          | none => []
          | some k => [(k, { key := value, entities := [uid] })] }
    rw [this]
    rfl

theorem mem_attrsOf_addValue (Marshal : Val → Option String) (d : dedup) (attr : String)
    (value : Val) (uid : Nat) : attr ∈ attrsOf (addValue Marshal d attr value uid) := by
  rw [attrsOf_addValue]
  by_cases h : attr ∈ attrsOf d
  · rw [if_pos h]
    exact h
  · rw [if_neg h]
    simp

theorem elementsAt_addValue (Marshal : Val → Option String) (d : dedup) (attr : String)
    (value : Val) (uid : Nat) (k : String) (hk : keyOf Marshal value uid = some k) :
    (addValue Marshal d attr value uid).groups[bucketAt d attr]? =
      some { attr := attr,
             elements := addValue.put k value uid (elementsAt d (bucketAt d attr)) } := by
  rw [addValue_groups Marshal d attr value uid k hk]
  by_cases h : attr ∈ attrsOf d
  · rw [if_pos h, List.getElem?_set_self (bucketAt_present d attr h).2.1]
  · rw [if_neg h, bucketAt_absent d attr h]
    simp

theorem getElem?_addValue_other (Marshal : Val → Option String) (d : dedup) (attr : String)
    (value : Val) (uid : Nat) (j : Nat) (hj : j ≠ bucketAt d attr) :
    (addValue Marshal d attr value uid).groups[j]? = d.groups[j]? := by
  by_cases h : attr ∈ attrsOf d
  · obtain ⟨hf, hi, u, hu, he⟩ := bucketAt_present d attr h
    cases hk : keyOf Marshal value uid with
    | none =>
      obtain ⟨i, u1, _, _, _, heq⟩ := addValue_present Marshal d attr value uid h
      rw [heq, hk]
    | some k =>
      rw [addValue_groups Marshal d attr value uid k hk, if_pos h, List.getElem?_set]
      simp [Ne.symm hj]
  · rw [addValue_absent Marshal d attr value uid h]
    rw [bucketAt_absent d attr h] at hj
    by_cases hlt : j < d.groups.length
    · simp [List.getElem?_append_left hlt]
    · have h1 : d.groups[j]? = none := List.getElem?_eq_none (by omega)
      rw [h1]
      apply List.getElem?_eq_none
      simp only [List.length_append, List.length_singleton]
      omega

/-! ## The map of a bucket after a call -/

theorem keysIn_put (k : String) (v : Val) (e : Nat) (E : List (String × groupElements)) :
    keysIn (addValue.put k v e E) =
      if k ∈ keysIn E then keysIn E else keysIn E ++ [k] := by
  induction E with
  | nil => simp [addValue.put, keysIn]
  | cons kv rest ih =>
    simp only [keysIn] at ih
    by_cases h : kv.1 = k
    · simp [addValue.put, keysIn, h]
    · have h1 : ¬ k = kv.1 := fun e => h e.symm
      simp only [addValue.put, h, if_false, keysIn, List.map_cons, List.mem_cons, h1, false_or,
        ih]
      split <;> simp

theorem entryOf_put_self (k : String) (v : Val) (e : Nat) (E : List (String × groupElements)) :
    entryOf (addValue.put k v e E) k =
      some { key := (match entryOf E k with
               | some g => g.key
               | none => v),
             entities := (match entryOf E k with
               | some g => g.entities
               | none => []) ++ [e] } := by
  induction E with
  | nil => simp [addValue.put, entryOf]
  | cons kv rest ih =>
    by_cases h : kv.1 = k
    · simp [addValue.put, entryOf, h]
    · simp [addValue.put, entryOf, h, ih]

theorem entryOf_put_other (k : String) (v : Val) (e : Nat) (E : List (String × groupElements))
    (k1 : String) (h : k1 ≠ k) :
    entryOf (addValue.put k v e E) k1 = entryOf E k1 := by
  induction E with
  | nil =>
    have h1 : ¬ k = k1 := fun e => h e.symm
    simp [addValue.put, entryOf, h1]
  | cons kv rest ih =>
    have h2 : ¬ k = k1 := fun e => h e.symm
    by_cases hk : kv.1 = k
    · have h1 : ¬ kv.1 = k1 := fun e => h (e.symm.trans hk)
      simp [addValue.put, entryOf, hk, h1, h2]
    · by_cases hk1 : kv.1 = k1
      · simp [addValue.put, entryOf, hk, hk1, h]
      · simp [addValue.put, entryOf, hk, hk1, ih]

theorem length_addValue (Marshal : Val → Option String) (d : dedup) (attr : String)
    (value : Val) (uid : Nat) :
    (addValue Marshal d attr value uid).groups.length =
      if attr ∈ attrsOf d then d.groups.length else d.groups.length + 1 := by
  have e1 : ∀ x : dedup, x.groups.length = (attrsOf x).length := by
    intro x
    simp [attrsOf]
  rw [e1, attrsOf_addValue]
  split <;> simp [attrsOf]

/-! ## C14: addValue accumulates -/

/-- C14: for a value that is not an identifier and marshals to `k`, the call
`addValue attr v e1` addresses one bucket (the bucket of `attr`, appended when
absent); in its map the entry of `k` keeps its representative (`v` for a new
entry) and gets `e1` at the end of its member list, the other entries and the
list of keys are unchanged (`k` being added last when new); every other bucket
is unchanged; and after a second call with `e2` the entry of `k` ends with
`e1, e2` and is the only entry of key `k`. -/
theorem addValue_accumulates (Marshal : Val → Option String) (d : dedup) (attr : String)
    (v : Val) (e1 e2 : Nat) (k : String)
    (hT : v.Tid ≠ TypeID.UidID) (hM : Marshal v = some k) :
    (attr ∈ attrsOf d → bucketAt d attr < d.groups.length ∧
      ∃ u, d.groups[bucketAt d attr]? = some u ∧ u.attr = attr) ∧
    (attr ∉ attrsOf d → bucketAt d attr = d.groups.length) ∧
    (∃ u1, (addValue Marshal d attr v e1).groups[bucketAt d attr]? = some u1 ∧
      u1.attr = attr ∧
      entryOf u1.elements k =
        some { key := (match entryOf (elementsAt d (bucketAt d attr)) k with
                 | some g => g.key
                 | none => v),
               entities := (match entryOf (elementsAt d (bucketAt d attr)) k with
                 | some g => g.entities
                 | none => []) ++ [e1] } ∧
      (∀ k1, k1 ≠ k → entryOf u1.elements k1 = entryOf (elementsAt d (bucketAt d attr)) k1) ∧
      keysIn u1.elements =
        if k ∈ keysIn (elementsAt d (bucketAt d attr)) then keysIn (elementsAt d (bucketAt d attr))
        else keysIn (elementsAt d (bucketAt d attr)) ++ [k]) ∧
    (∀ j, j ≠ bucketAt d attr → (addValue Marshal d attr v e1).groups[j]? = d.groups[j]?) ∧
    ((addValue Marshal d attr v e1).groups.length =
      if attr ∈ attrsOf d then d.groups.length else d.groups.length + 1) ∧
    (∃ u2 g, (addValue Marshal (addValue Marshal d attr v e1) attr v e2).groups[bucketAt d attr]? =
        some u2 ∧
      u2.attr = attr ∧ entryOf u2.elements k = some g ∧
      g.entities = (match entryOf (elementsAt d (bucketAt d attr)) k with
                 | some g => g.entities
                 | none => []) ++ [e1, e2] ∧
      ((keysIn (elementsAt d (bucketAt d attr))).Nodup → (keysIn u2.elements).count k = 1)) := by
  have hk1 : keyOf Marshal v e1 = some k := by simp [keyOf, hT, hM]
  have hk2 : keyOf Marshal v e2 = some k := by simp [keyOf, hT, hM]
  refine ⟨fun h => (bucketAt_present d attr h).2, bucketAt_absent d attr, ?_,
    fun j hj => getElem?_addValue_other Marshal d attr v e1 j hj,
    length_addValue Marshal d attr v e1, ?_⟩
  · exact ⟨_, elementsAt_addValue Marshal d attr v e1 k hk1, rfl, entryOf_put_self _ _ _ _,
      fun k1 h1 => entryOf_put_other _ _ _ _ k1 h1, keysIn_put _ _ _ _⟩
  · have h1 := elementsAt_addValue Marshal d attr v e1 k hk1
    have h2 := elementsAt_addValue Marshal (addValue Marshal d attr v e1) attr v e2 k hk2
    rw [bucketAt_addValue] at h2
    have hel : elementsAt (addValue Marshal d attr v e1) (bucketAt d attr) =
        addValue.put k v e1 (elementsAt d (bucketAt d attr)) := by
      simp only [elementsAt, h1]
    rw [hel] at h2
    refine ⟨_, _, h2, rfl, entryOf_put_self _ _ _ _, ?_, ?_⟩
    · simp only [entryOf_put_self]
      simp
    · intro hnd
      have hmem : k ∈ keysIn (addValue.put k v e1 (elementsAt d (bucketAt d attr))) := by
        rw [keysIn_put]
        split
        · assumption
        · simp
      have hnd1 : (keysIn (addValue.put k v e1 (elementsAt d (bucketAt d attr)))).Nodup := by
        rw [keysIn_put]
        split
        · exact hnd
        · rename_i hn
          rw [List.nodup_append]
          refine ⟨hnd, by simp, ?_⟩
          intro x hx hx1
          rw [List.mem_singleton] at hx1
          exact hn (hx1 ▸ hx)
      simp only [keysIn_put k v e2, hmem, if_true]
      exact List.count_eq_one_of_mem hnd1 hmem

/-- Witness of C14: on the index where the entities 5 and 6 are red, two calls
for color red with the entities 7 and 8 leave the one entry red with the members
5, 6, 7, 8 and the bucket of size as it was. -/
theorem addValue_accumulates_witness :
    (strVal "red").Tid ≠ TypeID.UidID ∧ sampleMarshal (strVal "red") = some "red" ∧
    (addValue sampleMarshal (addValue sampleMarshal redIndex "color" (strVal "red") 7)
        "color" (strVal "red") 8).groups =
      [{ elements := [("red", { entities := [5, 6, 7, 8], key := strVal "red" })],
         attr := "color" },
       { elements := [("S", { entities := [5], key := strVal "S" }),
                      ("M", { entities := [6], key := strVal "M" })], attr := "size" }] ∧
    ((addValue sampleMarshal redIndex "color" (strVal "red") 7).groups.length =
      if "color" ∈ attrsOf redIndex then redIndex.groups.length
      else redIndex.groups.length + 1) :=
  ⟨by decide, by decide, by decide,
    (addValue_accumulates sampleMarshal redIndex "color" (strVal "red") 7 8 "red"
      (by decide) (by decide)).2.2.2.2.1⟩

/-! ## The decimal string of an identifier -/

theorem digitChar_value (m : Nat) (h : m < 10) : (Nat.digitChar m).toNat - 48 = m := by
  interval_cases m <;> rfl

theorem decode_toDigitsCore :
    ∀ fuel n ds, n < fuel →
      decodeDigits 0 (Nat.toDigitsCore 10 fuel n ds) = decodeDigits n ds := by
  intro fuel
  induction fuel with
  | zero => intro n ds h; omega
  | succ fuel ih =>
    intro n ds h
    simp only [Nat.toDigitsCore]
    by_cases h0 : n / 10 = 0
    · simp only [h0, if_true]
      have hn : n < 10 := by omega
      simp only [decodeDigits, List.foldl_cons, Nat.zero_mul, Nat.zero_add]
      rw [digitChar_value _ (Nat.mod_lt _ (by omega)), Nat.mod_eq_of_lt hn]
    · simp only [h0, if_false]
      rw [ih (n / 10) _ (by omega)]
      simp only [decodeDigits, List.foldl_cons]
      rw [digitChar_value _ (Nat.mod_lt _ (by omega))]
      congr 1
      omega

/-- Two identifiers with the same decimal string are equal. -/
theorem repr_injective : Function.Injective Nat.repr := by
  intro m n h
  have h1 : Nat.toDigits 10 m = Nat.toDigits 10 n := by
    have := congrArg String.data h
    simpa [Nat.repr, List.asString] using this
  have h2 := congrArg (decodeDigits 0) h1
  simp only [Nat.toDigits] at h2
  rw [decode_toDigitsCore _ _ _ (Nat.lt_succ_self m),
    decode_toDigitsCore _ _ _ (Nat.lt_succ_self n)] at h2
  simpa [decodeDigits] using h2

/-! ## A sequence of calls for one attribute -/

theorem elementsAt_addValue_any (Marshal : Val → Option String) (d : dedup) (attr : String)
    (value : Val) (uid : Nat) :
    elementsAt (addValue Marshal d attr value uid) (bucketAt d attr) =
      match keyOf Marshal value uid with
      | some k => addValue.put k value uid (elementsAt d (bucketAt d attr))
      | none => elementsAt d (bucketAt d attr) := by
  cases hk : keyOf Marshal value uid with
  | some k =>
    simp only [elementsAt, elementsAt_addValue Marshal d attr value uid k hk]
  | none =>
    by_cases h : attr ∈ attrsOf d
    · obtain ⟨i, u, _, _, _, heq⟩ := addValue_present Marshal d attr value uid h
      rw [heq, hk]
    · rw [addValue_absent Marshal d attr value uid h, hk, bucketAt_absent d attr h]
      simp [elementsAt]

theorem bucketAt_addValues (Marshal : Val → Option String) (attr : String)
    (calls : List (String × Val × Nat)) (h : ∀ c ∈ calls, c.1 = attr) (d : dedup) :
    bucketAt (addValues Marshal d calls) attr = bucketAt d attr := by
  induction calls generalizing d with
  | nil => rfl
  | cons c calls ih =>
    have hc : c.1 = attr := h c (List.mem_cons_self _ _)
    simp only [addValues, List.foldl_cons] at ih ⊢
    rw [ih (fun x hx => h x (List.mem_cons_of_mem _ hx)), hc, bucketAt_addValue]

theorem elementsAt_addValues (Marshal : Val → Option String) (attr : String)
    (calls : List (String × Val × Nat)) (h : ∀ c ∈ calls, c.1 = attr) (d : dedup) :
    elementsAt (addValues Marshal d calls) (bucketAt d attr) =
      putAll Marshal calls (elementsAt d (bucketAt d attr)) := by
  induction calls generalizing d with
  | nil => rfl
  | cons c calls ih =>
    have hc : c.1 = attr := h c (List.mem_cons_self _ _)
    have ih1 := ih (fun x hx => h x (List.mem_cons_of_mem _ hx))
      (addValue Marshal d c.1 c.2.1 c.2.2)
    simp only [addValues, List.foldl_cons, putAll] at ih1 ⊢
    rw [hc] at ih1 ⊢
    rw [bucketAt_addValue] at ih1
    rw [ih1, elementsAt_addValue_any]

theorem getElem?_addValues_other (Marshal : Val → Option String) (attr : String)
    (calls : List (String × Val × Nat)) (h : ∀ c ∈ calls, c.1 = attr) (d : dedup)
    (j : Nat) (hj : j ≠ bucketAt d attr) :
    (addValues Marshal d calls).groups[j]? = d.groups[j]? := by
  induction calls generalizing d with
  | nil => rfl
  | cons c calls ih =>
    have hc : c.1 = attr := h c (List.mem_cons_self _ _)
    have ih1 := ih (fun x hx => h x (List.mem_cons_of_mem _ hx))
      (addValue Marshal d c.1 c.2.1 c.2.2)
    simp only [addValues, List.foldl_cons] at ih1 ⊢
    rw [hc] at ih1 ⊢
    rw [bucketAt_addValue] at ih1
    rw [ih1 hj, getElem?_addValue_other Marshal d attr c.2.1 c.2.2 j hj]

theorem attrsOf_addValues_one (Marshal : Val → Option String) (attr : String)
    (calls : List (String × Val × Nat)) (h : ∀ c ∈ calls, c.1 = attr) (hne : calls ≠ [])
    (d : dedup) :
    attrsOf (addValues Marshal d calls) =
      if attr ∈ attrsOf d then attrsOf d else attrsOf d ++ [attr] := by
  induction calls generalizing d with
  | nil => exact absurd rfl hne
  | cons c calls ih =>
    have hc : c.1 = attr := h c (List.mem_cons_self _ _)
    have hrest : ∀ x ∈ calls, x.1 = attr := fun x hx => h x (List.mem_cons_of_mem _ hx)
    cases calls with
    | nil =>
      simp only [addValues, List.foldl_cons, List.foldl_nil]
      rw [hc, attrsOf_addValue]
    | cons c1 calls1 =>
      have ih1 := ih hrest (by simp) (addValue Marshal d c.1 c.2.1 c.2.2)
      simp only [addValues, List.foldl_cons] at ih1 ⊢
      rw [ih1, hc, if_pos (mem_attrsOf_addValue Marshal d attr c.2.1 c.2.2), attrsOf_addValue]

/-- From an index without bucket for the attribute, a non-empty sequence of
calls for this attribute appends one bucket, whose map is the result of the
calls on the empty map. -/
theorem addValues_new_bucket (Marshal : Val → Option String) (attr : String)
    (calls : List (String × Val × Nat)) (h : ∀ c ∈ calls, c.1 = attr) (hne : calls ≠ [])
    (d : dedup) (habs : attr ∉ attrsOf d) :
    (addValues Marshal d calls).groups =
      d.groups ++ [{ attr := attr, elements := putAll Marshal calls [] }] := by
  have hattrs := attrsOf_addValues_one Marshal attr calls h hne d
  rw [if_neg habs] at hattrs
  have hb := bucketAt_absent d attr habs
  have hel := elementsAt_addValues Marshal attr calls h d
  rw [elementsAt_absent d attr habs, hb] at hel
  have hlen : (addValues Marshal d calls).groups.length = d.groups.length + 1 := by
    have := congrArg List.length hattrs
    simpa [attrsOf] using this
  apply List.ext_getElem?
  intro j
  by_cases hj : j = d.groups.length
  · subst hj
    have hlt : d.groups.length < (addValues Marshal d calls).groups.length := by omega
    have hget := List.getElem?_eq_getElem hlt
    have hattr : ((addValues Marshal d calls).groups[d.groups.length]).attr = attr := by
      have := congrArg (fun l => l[d.groups.length]?) hattrs
      simp only [attrsOf, List.getElem?_map, hget, Option.map_some'] at this
      simpa using this
    have helem : ((addValues Marshal d calls).groups[d.groups.length]).elements =
        putAll Marshal calls [] := by
      simpa [elementsAt, hget] using hel
    rw [hget]
    simp only [List.getElem?_append_right (Nat.le_refl _), Nat.sub_self,
      List.getElem?_cons_zero, Option.some.injEq]
    cases hu : (addValues Marshal d calls).groups[d.groups.length] with
    | mk el at1 =>
      rw [hu] at hattr helem
      simp only at hattr helem
      rw [hattr, helem]
  · rw [getElem?_addValues_other Marshal attr calls h d j (by rw [hb]; exact hj)]
    by_cases hlt : j < d.groups.length
    · rw [List.getElem?_append_left hlt]
    · have h1 : d.groups[j]? = none := List.getElem?_eq_none (by omega)
      rw [h1]
      symm
      apply List.getElem?_eq_none
      simp only [List.length_append, List.length_singleton]
      omega

theorem keysIn_putAll (Marshal : Val → Option String) (calls : List (String × Val × Nat))
    (E : List (String × groupElements)) :
    keysIn (putAll Marshal calls E) =
      (calls.filterMap (fun c => keyOf Marshal c.2.1 c.2.2)).foldl
        (fun acc a => if a ∈ acc then acc else acc ++ [a]) (keysIn E) := by
  induction calls generalizing E with
  | nil => rfl
  | cons c calls ih =>
    simp only [putAll, List.foldl_cons, List.filterMap_cons] at ih ⊢
    cases hk : keyOf Marshal c.2.1 c.2.2 with
    | none => exact ih E
    | some k =>
      simp only [hk, List.foldl_cons]
      rw [ih, keysIn_put]

theorem length_firstSeen {α : Type} [DecidableEq α] (l : List α) :
    (firstSeen l).length = l.dedup.length := by
  apply List.Perm.length_eq
  rw [List.perm_ext_iff_of_nodup (firstSeen_nodup l) (List.nodup_dedup l)]
  intro a
  rw [mem_firstSeen, List.mem_dedup]

theorem foldl_pushNew_nil {α : Type} [DecidableEq α] (l : List α) :
    l.foldl (fun acc a => if a ∈ acc then acc else acc ++ [a]) [] = firstSeen l := by
  rw [foldl_pushNew]
  simp

theorem filterMap_keyOf_uid (Marshal : Val → Option String)
    (calls : List (String × Val × Nat)) (h : ∀ c ∈ calls, c.2.1.Tid = TypeID.UidID) :
    calls.filterMap (fun c => keyOf Marshal c.2.1 c.2.2) =
      (calls.map (fun c => c.2.2)).map Nat.repr := by
  induction calls with
  | nil => rfl
  | cons c calls ih =>
    have hc := h c (List.mem_cons_self _ _)
    simp only [List.filterMap_cons, keyOf, hc, if_true, List.map_cons]
    rw [← ih (fun x hx => h x (List.mem_cons_of_mem _ hx))]
    simp only [keyOf]

/-- The keys of the bucket built by identifier-kind calls for one attribute. -/
theorem keysIn_putAll_uid (Marshal : Val → Option String)
    (calls : List (String × Val × Nat)) (h : ∀ c ∈ calls, c.2.1.Tid = TypeID.UidID) :
    keysIn (putAll Marshal calls []) = firstSeen ((calls.map (fun c => c.2.2)).map Nat.repr) := by
  rw [keysIn_putAll, filterMap_keyOf_uid Marshal calls h]
  exact foldl_pushNew_nil _

theorem length_putAll_uid (Marshal : Val → Option String)
    (calls : List (String × Val × Nat)) (h : ∀ c ∈ calls, c.2.1.Tid = TypeID.UidID) :
    (putAll Marshal calls []).length = (calls.map (fun c => c.2.2)).dedup.length := by
  have e : (putAll Marshal calls []).length = (keysIn (putAll Marshal calls [])).length := by
    simp [keysIn]
  rw [e, keysIn_putAll_uid Marshal calls h, length_firstSeen,
    List.dedup_map_of_injective repr_injective, List.length_map]

/-! ## C13: the key of an identifier value -/

/-- C13: for identifier values the key of the entry is the decimal string of
the entity of the call: from an index without bucket for the attribute, two
calls with the same identifier value and two different entities create two
entries, keyed by the two entities; and after any non-empty sequence of
identifier-kind calls for the attribute its bucket has one entry per distinct
entity passed, keyed by the entities in the order of their first occurrence. -/
theorem addValue_identifier_keys (Marshal : Val → Option String) (attr : String) (d : dedup)
    (habs : attr ∉ attrsOf d) :
    (∀ (v : Val) (e1 e2 : Nat), v.Tid = TypeID.UidID → e1 ≠ e2 →
      Nat.repr e1 ≠ Nat.repr e2 ∧
      (addValue Marshal (addValue Marshal d attr v e1) attr v e2).groups =
        d.groups ++
          [{ attr := attr,
             elements := [(Nat.repr e1, { key := v, entities := [e1] }),
                          (Nat.repr e2, { key := v, entities := [e2] })] }]) ∧
    (∀ calls : List (String × Val × Nat), calls ≠ [] →
      (∀ c ∈ calls, c.1 = attr ∧ c.2.1.Tid = TypeID.UidID) →
      ∃ u, (addValues Marshal d calls).groups = d.groups ++ [u] ∧ u.attr = attr ∧
        keysIn u.elements = firstSeen ((calls.map (fun c => c.2.2)).map Nat.repr) ∧
        u.elements.length = (calls.map (fun c => c.2.2)).dedup.length) := by
  constructor
  · intro v e1 e2 hv hne
    have hr : Nat.repr e1 ≠ Nat.repr e2 := fun e => hne (repr_injective e)
    refine ⟨hr, ?_⟩
    have h := addValues_new_bucket Marshal attr [(attr, v, e1), (attr, v, e2)]
      (by simp) (by simp) d habs
    simp only [addValues, List.foldl_cons, List.foldl_nil] at h
    rw [h]
    simp [putAll, keyOf, hv, addValue.put, hr]
  · intro calls hne hc
    refine ⟨_, addValues_new_bucket Marshal attr calls (fun c hx => (hc c hx).1) hne d habs,
      rfl, ?_, ?_⟩
    · exact keysIn_putAll_uid Marshal calls (fun c hx => (hc c hx).2)
    · exact length_putAll_uid Marshal calls (fun c hx => (hc c hx).2)

/-- Witness of C13: the entities 1 and 2 both refer to entity 10 by friend; the
bucket has the two entries "1" and "2", not one entry for 10. -/
theorem addValue_identifier_keys_witness :
    "friend" ∉ attrsOf { groups := [] } ∧
    (addValue sampleMarshal (addValue sampleMarshal { groups := [] } "friend" (uidVal 10) 1)
        "friend" (uidVal 10) 2).groups =
      [{ attr := "friend",
         elements := [("1", { key := uidVal 10, entities := [1] }),
                      ("2", { key := uidVal 10, entities := [2] })] }] ∧
    ∃ u, (addValues sampleMarshal { groups := [] }
        [("friend", uidVal 10, 1), ("friend", uidVal 11, 1), ("friend", uidVal 10, 2)]).groups =
        [] ++ [u] ∧ u.elements.length = 2 :=
  ⟨by decide, by decide,
    ((addValue_identifier_keys sampleMarshal "friend" { groups := [] } (by decide)).2
      [("friend", uidVal 10, 1), ("friend", uidVal 11, 1), ("friend", uidVal 10, 2)]
      (by decide) (by decide)).elim
      (fun u h => ⟨u, h.1, h.2.2.2.trans (by decide)⟩)⟩

/-! ## The index that processGroupBy builds -/

theorem addUids_eq (Marshal : Val → Option String) (attr : String) (srcUid : Nat)
    (ul : List Nat) (d : dedup) :
    processGroupBy.addUids Marshal attr srcUid ul d =
      addValues Marshal d
        (ul.map (fun uid => (attr, { Tid := TypeID.UidID, Value := Value.uid uid }, srcUid))) := by
  simp [processGroupBy.addUids, addValues, List.foldl_map]

theorem addValues_append (Marshal : Val → Option String) (d : dedup)
    (l1 l2 : List (String × Val × Nat)) :
    addValues Marshal d (l1 ++ l2) = addValues Marshal (addValues Marshal d l1) l2 := by
  simp [addValues, List.foldl_append]

/-- With a parent for every row the identifier branch does not panic and makes
the calls of `callsUid`. -/
theorem uidNode_eq (Marshal : Val → Option String) (attr : String) (rows : List (List Nat))
    (srcs : List Nat) (h : rows.length ≤ srcs.length) (d : dedup) :
    processGroupBy.uidNode Marshal attr rows srcs d =
      some (addValues Marshal d (callsUid attr rows srcs)) := by
  induction rows generalizing srcs d with
  | nil => cases srcs <;> rfl
  | cons ul rows ih =>
    cases srcs with
    | nil => simp at h
    | cons s srcs =>
      simp only [processGroupBy.uidNode, callsUid]
      rw [ih srcs (by simpa using h), addUids_eq, addValues_append]

theorem index_filter {TV : Type} (convertTo : TV → Except String Val)
    (Marshal : Val → Option String) (Children : List (SubGraph TV)) (d : dedup) :
    Children.foldlM (processGroupBy.child convertTo Marshal) d =
      (Children.filter (fun c => c.Params.ignoreResult)).foldlM
        (processGroupBy.child convertTo Marshal) d := by
  induction Children generalizing d with
  | nil => rfl
  | cons c cs ih =>
    by_cases hc : c.Params.ignoreResult = true
    · simp only [List.filter_cons, hc, if_true, List.foldlM_cons]
      cases processGroupBy.child convertTo Marshal d c with
      | none => rfl
      | some d1 => exact ih d1
    · have hc1 : c.Params.ignoreResult = false := by simpa using hc
      simp only [List.filter_cons, hc1, Bool.false_eq_true, if_false, List.foldlM_cons]
      have e : processGroupBy.child convertTo Marshal d c = some d := by
        simp [processGroupBy.child, hc1]
      rw [e]
      exact ih d

theorem callsUid_attr (attr : String) (rows : List (List Nat)) (srcs : List Nat) :
    ∀ c ∈ callsUid attr rows srcs, c.1 = attr ∧ c.2.1.Tid = TypeID.UidID := by
  induction rows generalizing srcs with
  | nil => intro c hc; cases srcs <;> simp [callsUid] at hc
  | cons ul rows ih =>
    cases srcs with
    | nil => intro c hc; simp [callsUid] at hc
    | cons s srcs =>
      intro c hc
      simp only [callsUid, List.mem_append, List.mem_map] at hc
      rcases hc with ⟨uid, _, rfl⟩ | hc
      · exact ⟨rfl, rfl⟩
      · exact ih srcs c hc

theorem mem_callsUid_entities (attr : String) (rows : List (List Nat)) (srcs : List Nat)
    (x : Nat) :
    x ∈ (callsUid attr rows srcs).map (fun c => c.2.2) ↔ x ∈ parentsWithRelated rows srcs := by
  induction rows generalizing srcs with
  | nil => cases srcs <;> simp [callsUid, parentsWithRelated]
  | cons ul rows ih =>
    cases srcs with
    | nil => simp [callsUid, parentsWithRelated]
    | cons s srcs =>
      have ih1 := ih srcs
      simp only [callsUid, parentsWithRelated, List.map_append, List.mem_append, List.map_map]
      rw [ih1]
      cases ul with
      | nil => simp
      | cons a ul =>
        simp only [List.map_cons, List.mem_cons, List.mem_map, Function.comp_apply,
          if_neg (List.cons_ne_nil a ul)]
        constructor
        · rintro ((h | ⟨_, _, h⟩) | h)
          · exact Or.inl h
          · exact Or.inl h.symm
          · exact Or.inr h
        · rintro (h | h)
          · exact Or.inl (Or.inl h)
          · exact Or.inr h

theorem callsUid_ne_nil (attr : String) (rows : List (List Nat)) (srcs : List Nat)
    (h : rows.length ≤ srcs.length) (hs : ∃ row ∈ rows, row ≠ []) :
    callsUid attr rows srcs ≠ [] := by
  induction rows generalizing srcs with
  | nil =>
    obtain ⟨row, hr, _⟩ := hs
    simp at hr
  | cons ul rows ih =>
    cases srcs with
    | nil => simp at h
    | cons s srcs =>
      simp only [callsUid]
      cases ul with
      | cons a ul => simp
      | nil =>
        obtain ⟨row, hr, hne⟩ := hs
        rcases List.mem_cons.1 hr with e | e
        · exact absurd e hne
        · simpa using ih srcs (by simpa using h) ⟨row, e, hne⟩

theorem dedup_length_congr (l1 l2 : List Nat) (h : ∀ x, x ∈ l1 ↔ x ∈ l2) :
    l1.dedup.length = l2.dedup.length := by
  apply List.Perm.length_eq
  rw [List.perm_ext_iff_of_nodup (List.nodup_dedup l1) (List.nodup_dedup l2)]
  intro a
  rw [List.mem_dedup, List.mem_dedup]
  exact h a

/-! ## C12: grouping by one identifier-valued attribute -/

/-- C12, refuted as stated: when the parents 1 and 2 both refer to the single
entity 10, the index built by `processGroupBy` gives two groups, although one
identifier only occurs in the lists of related identifiers. -/
theorem one_uid_child_groups_by_parent :
    ∃ d res, processGroupBy.index sampleConvertTo sampleMarshal [friendChild] = some d ∧
      formGroups d [] [] [] = some res ∧ res.length = 2 ∧
      (friendChild.uidMatrix.flatMap id).dedup.length = 1 :=
  ⟨_, _, rfl, rfl, by decide, by decide⟩

/-- C12, amended: when the only grouping child is identifier-valued, has a parent
for every row of its matrix and at least one related identifier, the number of
groups formed from the index built by `processGroupBy` equals the number of
distinct parent entities that have at least one related identifier. -/
theorem one_uid_child_group_count {TV : Type} (convertTo : TV → Except String Val)
    (Marshal : Val → Option String) (Children : List (SubGraph TV)) (child : SubGraph TV)
    (hf : Children.filter (fun c => c.Params.ignoreResult) = [child])
    (hd : child.DestUIDs ≠ [])
    (hl : child.uidMatrix.length ≤ child.SrcUIDs.length)
    (hs : ∃ row ∈ child.uidMatrix, row ≠ []) :
    ∃ d res, processGroupBy.index convertTo Marshal Children = some d ∧
      formGroups d [] [] [] = some res ∧
      res.length = (parentsWithRelated child.uidMatrix child.SrcUIDs).dedup.length := by
  have hc : child.Params.ignoreResult = true := by
    have : child ∈ Children.filter (fun c => c.Params.ignoreResult) := by simp [hf]
    simpa using (List.mem_filter.1 this).2
  have hd1 : child.DestUIDs.length ≠ 0 := fun e => hd (List.length_eq_zero.1 e)
  have hidx : processGroupBy.index convertTo Marshal Children =
      some (addValues Marshal { groups := [] }
        (callsUid child.Attr child.uidMatrix child.SrcUIDs)) := by
    have e : processGroupBy.child convertTo Marshal { groups := [] } child =
        some (addValues Marshal { groups := [] }
          (callsUid child.Attr child.uidMatrix child.SrcUIDs)) := by
      unfold processGroupBy.child
      rw [hc]
      simp only [Bool.not_true, Bool.false_eq_true, if_false]
      rw [if_pos hd1]
      exact uidNode_eq Marshal child.Attr child.uidMatrix child.SrcUIDs hl _
    unfold processGroupBy.index
    rw [index_filter, hf, List.foldlM_cons, e]
    rfl
  have hcalls := callsUid_attr child.Attr child.uidMatrix child.SrcUIDs
  have hne := callsUid_ne_nil child.Attr child.uidMatrix child.SrcUIDs hl hs
  have hg := addValues_new_bucket Marshal child.Attr _ (fun c hx => (hcalls c hx).1) hne
    { groups := [] } (by simp [attrsOf])
  refine ⟨_, _, hidx, formGroups_start _, ?_⟩
  rw [List.length_map, length_choices, hg]
  simp only [List.nil_append, List.map_cons, List.map_nil, List.prod_cons, List.prod_nil,
    Nat.mul_one]
  rw [length_putAll_uid Marshal _ (fun c hx => (hcalls c hx).2)]
  exact dedup_length_congr _ _ (mem_callsUid_entities _ _ _)

/-- Witness of the amended C12: the parents 1 and 2 both refer to entity 10, and
there are two groups, one per parent. -/
theorem one_uid_child_group_count_witness :
    (parentsWithRelated friendChild.uidMatrix friendChild.SrcUIDs).dedup.length = 2 ∧
    ∃ d res, processGroupBy.index sampleConvertTo sampleMarshal [friendChild] = some d ∧
      formGroups d [] [] [] = some res ∧
      res.length = (parentsWithRelated friendChild.uidMatrix friendChild.SrcUIDs).dedup.length :=
  ⟨by decide,
    one_uid_child_group_count sampleConvertTo sampleMarshal [friendChild] friendChild
      rfl (by decide) (by decide) ⟨[10], by decide, by decide⟩⟩

/-! ## C11: repeated members -/

theorem valueNode_eq {TV : Type} (convertTo : TV → Except String Val)
    (Marshal : Val → Option String) (attr : String) (vs : List TV) (srcs : List Nat)
    (h : vs.length ≤ srcs.length) (d : dedup) :
    processGroupBy.valueNode convertTo Marshal attr vs srcs d =
      some (addValues Marshal d (callsValue convertTo attr vs srcs)) := by
  induction vs generalizing srcs d with
  | nil => cases srcs <;> rfl
  | cons v vs ih =>
    cases srcs with
    | nil => simp at h
    | cons s srcs =>
      simp only [processGroupBy.valueNode, callsValue]
      cases convertTo v with
      | error e => exact ih srcs (by simpa using h) d
      | ok val =>
        simp only
        rw [ih srcs (by simpa using h)]
        rfl

theorem child_eq {TV : Type} (convertTo : TV → Except String Val)
    (Marshal : Val → Option String) (child : SubGraph TV)
    (hc : child.Params.ignoreResult = true) (hp : parallel child) (d : dedup) :
    processGroupBy.child convertTo Marshal d child =
      some (addValues Marshal d (callsOf convertTo child)) := by
  unfold processGroupBy.child callsOf
  unfold parallel at hp
  rw [hc]
  simp only [Bool.not_true, Bool.false_eq_true, if_false]
  by_cases hd : child.DestUIDs.length ≠ 0
  · rw [if_pos hd] at hp ⊢
    rw [if_pos hd]
    exact uidNode_eq Marshal child.Attr child.uidMatrix child.SrcUIDs hp d
  · rw [if_neg hd] at hp ⊢
    rw [if_neg hd]
    exact valueNode_eq convertTo Marshal child.Attr child.values child.SrcUIDs hp d

theorem foldlM_child_eq {TV : Type} (convertTo : TV → Except String Val)
    (Marshal : Val → Option String) (G : List (SubGraph TV))
    (hc : ∀ c ∈ G, c.Params.ignoreResult = true) (hp : ∀ c ∈ G, parallel c) (d : dedup) :
    G.foldlM (processGroupBy.child convertTo Marshal) d =
      some (addValues Marshal d (G.flatMap (callsOf convertTo))) := by
  induction G generalizing d with
  | nil => rfl
  | cons c cs ih =>
    rw [List.foldlM_cons, child_eq convertTo Marshal c (hc c (List.mem_cons_self _ _))
      (hp c (List.mem_cons_self _ _))]
    simp only [Option.bind_eq_bind, Option.some_bind, List.flatMap_cons]
    rw [ih (fun x hx => hc x (List.mem_cons_of_mem _ hx))
      (fun x hx => hp x (List.mem_cons_of_mem _ hx)), addValues_append]

/-- When the lists of the grouping children are parallel `processGroupBy` builds
its index without panic, by the calls of `callsOf` for each grouping child in
turn. -/
theorem index_eq {TV : Type} (convertTo : TV → Except String Val)
    (Marshal : Val → Option String) (Children : List (SubGraph TV))
    (hp : ∀ c ∈ Children.filter (fun c => c.Params.ignoreResult), parallel c) :
    processGroupBy.index convertTo Marshal Children =
      some (addValues Marshal { groups := [] }
        ((Children.filter (fun c => c.Params.ignoreResult)).flatMap (callsOf convertTo))) := by
  unfold processGroupBy.index
  rw [index_filter]
  exact foldlM_child_eq convertTo Marshal _
    (fun c hx => by simpa using (List.mem_filter.1 hx).2) hp _

theorem mem_put (k : String) (v : Val) (e : Nat) (E : List (String × groupElements))
    (kv : String × groupElements) (h : kv ∈ addValue.put k v e E) :
    kv ∈ E ∨ kv.2.entities = [e] ∨ ∃ old ∈ E, kv.2.entities = old.2.entities ++ [e] := by
  induction E with
  | nil =>
    simp only [addValue.put, List.mem_singleton] at h
    subst h
    exact Or.inr (Or.inl rfl)
  | cons x rest ih =>
    by_cases hx : x.1 = k
    · simp only [addValue.put, hx, if_true, List.mem_cons] at h
      rcases h with h | h
      · subst h
        exact Or.inr (Or.inr ⟨x, List.mem_cons_self _ _, rfl⟩)
      · exact Or.inl (List.mem_cons_of_mem _ h)
    · simp only [addValue.put, hx, if_false, List.mem_cons] at h
      rcases h with h | h
      · subst h
        exact Or.inl (List.mem_cons_self _ _)
      · rcases ih h with h1 | h1 | ⟨old, ho, h1⟩
        · exact Or.inl (List.mem_cons_of_mem _ h1)
        · exact Or.inr (Or.inl h1)
        · exact Or.inr (Or.inr ⟨old, List.mem_cons_of_mem _ ho, h1⟩)

theorem cleanIndex_mono {d : dedup} {done1 done2 : List (String × Nat)}
    (h : cleanIndex d done1) (hsub : ∀ p ∈ done1, p ∈ done2) : cleanIndex d done2 :=
  fun u hu kv hkv => ⟨(h u hu kv hkv).1, fun x hx => hsub _ ((h u hu kv hkv).2 x hx)⟩

theorem cleanIndex_addValue (Marshal : Val → Option String) (d : dedup)
    (done : List (String × Nat)) (attr : String) (v : Val) (e : Nat)
    (h : cleanIndex d done) (hnew : (attr, e) ∉ done) :
    cleanIndex (addValue Marshal d attr v e) (done ++ [(attr, e)]) := by
  have hold : cleanIndex d (done ++ [(attr, e)]) :=
    cleanIndex_mono h (fun p hp => List.mem_append_left _ hp)
  cases hk : keyOf Marshal v e with
  | none =>
    by_cases ha : attr ∈ attrsOf d
    · obtain ⟨i, u, _, _, _, heq⟩ := addValue_present Marshal d attr v e ha
      rw [heq, hk]
      exact hold
    · rw [addValue_absent Marshal d attr v e ha, hk]
      intro u hu kv hkv
      rcases List.mem_append.1 hu with h1 | h1
      · exact hold u h1 kv hkv
      · rw [List.mem_singleton] at h1
        subst h1
        simp at hkv
  | some k =>
    intro u hu kv hkv
    rw [addValue_groups Marshal d attr v e k hk] at hu
    have key : ∀ kv ∈ addValue.put k v e (elementsAt d (bucketAt d attr)),
        (∀ old ∈ elementsAt d (bucketAt d attr),
          old.2.entities.Nodup ∧ ∀ x ∈ old.2.entities, (attr, x) ∈ done) →
        kv.2.entities.Nodup ∧ ∀ x ∈ kv.2.entities, (attr, x) ∈ done ++ [(attr, e)] := by
      intro kv hkv hE
      rcases mem_put k v e _ kv hkv with h1 | h1 | ⟨old, ho, h1⟩
      · exact ⟨(hE kv h1).1, fun x hx => List.mem_append_left _ ((hE kv h1).2 x hx)⟩
      · rw [h1]
        exact ⟨by simp, fun x hx => by simp at hx; simp [hx]⟩
      · rw [h1]
        have hn : e ∉ old.2.entities := fun hm => hnew ((hE old ho).2 e hm)
        refine ⟨?_, ?_⟩
        · rw [List.nodup_append]
          refine ⟨(hE old ho).1, by simp, ?_⟩
          intro x hx hx1
          rw [List.mem_singleton] at hx1
          exact hn (hx1 ▸ hx)
        · intro x hx
          rcases List.mem_append.1 hx with h2 | h2
          · exact List.mem_append_left _ ((hE old ho).2 x h2)
          · rw [List.mem_singleton] at h2
            simp [h2]
    by_cases ha : attr ∈ attrsOf d
    · rw [if_pos ha] at hu
      obtain ⟨_, hi, u0, hu0, he0⟩ := bucketAt_present d attr ha
      rcases List.mem_or_eq_of_mem_set hu with h1 | h1
      · exact hold u h1 kv hkv
      · subst h1
        have hE : ∀ old ∈ elementsAt d (bucketAt d attr),
            old.2.entities.Nodup ∧ ∀ x ∈ old.2.entities, (attr, x) ∈ done := by
          intro old ho
          have hmem : u0 ∈ d.groups := List.mem_iff_getElem?.2 ⟨_, hu0⟩
          have ho1 : old ∈ u0.elements := by simpa [elementsAt, hu0] using ho
          have := h u0 hmem old ho1
          rw [he0] at this
          exact this
        exact key kv hkv hE
    · rw [if_neg ha] at hu
      rcases List.mem_append.1 hu with h1 | h1
      · exact hold u h1 kv hkv
      · rw [List.mem_singleton] at h1
        subst h1
        have hE : ∀ old ∈ elementsAt d (bucketAt d attr),
            old.2.entities.Nodup ∧ ∀ x ∈ old.2.entities, (attr, x) ∈ done := by
          rw [elementsAt_absent d attr ha]
          intro old ho
          simp at ho
        exact key kv hkv hE

theorem cleanIndex_addValues (Marshal : Val → Option String)
    (calls : List (String × Val × Nat)) (d : dedup) (done : List (String × Nat))
    (h : cleanIndex d done)
    (hnd : (done ++ calls.map (fun c => (c.1, c.2.2))).Nodup) :
    cleanIndex (addValues Marshal d calls) (done ++ calls.map (fun c => (c.1, c.2.2))) := by
  induction calls generalizing d done with
  | nil => simpa [addValues] using h
  | cons c calls ih =>
    have hnew : (c.1, c.2.2) ∉ done := by
      intro hm
      rw [List.nodup_append] at hnd
      exact hnd.2.2 hm (by simp)
    have h1 := cleanIndex_addValue Marshal d done c.1 c.2.1 c.2.2 h hnew
    have h2 := ih (addValue Marshal d c.1 c.2.1 c.2.2) (done ++ [(c.1, c.2.2)]) h1
      (by simpa [List.append_assoc] using hnd)
    simpa [addValues, List.append_assoc] using h2

theorem narrow_sublist (cur : List Nat) (es : List groupElements) :
    (narrow cur es).Sublist cur := by
  induction es generalizing cur with
  | nil => exact List.Sublist.refl _
  | cons e es ih => exact (ih _).trans (IntersectWith_sublist _ _)

/-- The groups formed from an index whose member lists are without repetition
have member lists without repetition. -/
theorem groups_nodup_of_clean (d : dedup) (done : List (String × Nat)) (h : cleanIndex d done) :
    ∀ g ∈ (choices d.groups).map (groupOf d.groups), g.uids.Nodup := by
  have key : ∀ (us : List uniq) (es : List groupElements),
      (∀ u ∈ us, ∀ kv ∈ u.elements, kv.2.entities.Nodup) →
      List.Forall₂ (fun u e => ∃ k, (k, e) ∈ u.elements) us es → (membersOf es).Nodup := by
    intro us es hus hf
    cases hf with
    | nil => simp [membersOf]
    | @cons u e us1 es1 hhead _ =>
      obtain ⟨k, hk⟩ := hhead
      exact (narrow_sublist _ _).nodup (hus u (List.mem_cons_self _ _) (k, e) hk)
  intro g hg
  obtain ⟨es, hes, rfl⟩ := List.mem_map.1 hg
  exact key d.groups es (fun u hu kv hkv => (h u hu kv hkv).1) ((mem_choices _ _).1 hes)

theorem callsValue_attr {TV : Type} (convertTo : TV → Except String Val) (attr : String)
    (vs : List TV) (srcs : List Nat) :
    ∀ c ∈ callsValue convertTo attr vs srcs, c.1 = attr := by
  induction vs generalizing srcs with
  | nil => intro c hc; cases srcs <;> simp [callsValue] at hc
  | cons v vs ih =>
    cases srcs with
    | nil => intro c hc; simp [callsValue] at hc
    | cons s srcs =>
      intro c hc
      simp only [callsValue] at hc
      cases hv : convertTo v with
      | error e =>
        rw [hv] at hc
        exact ih srcs c hc
      | ok val =>
        rw [hv] at hc
        rcases List.mem_cons.1 hc with h | h
        · rw [h]
        · exact ih srcs c h

theorem callsValue_entities {TV : Type} (convertTo : TV → Except String Val) (attr : String)
    (vs : List TV) (srcs : List Nat) :
    ((callsValue convertTo attr vs srcs).map (fun c => c.2.2)).Sublist srcs := by
  induction vs generalizing srcs with
  | nil => cases srcs <;> simp [callsValue]
  | cons v vs ih =>
    cases srcs with
    | nil => simp [callsValue]
    | cons s srcs =>
      simp only [callsValue]
      cases convertTo v with
      | error e => exact (ih srcs).cons s
      | ok val => exact (ih srcs).cons₂ s

theorem callsUid_entities (attr : String) (rows : List (List Nat)) (srcs : List Nat)
    (h : ∀ row ∈ rows, row.length ≤ 1) :
    ((callsUid attr rows srcs).map (fun c => c.2.2)).Sublist srcs := by
  induction rows generalizing srcs with
  | nil => cases srcs <;> simp [callsUid]
  | cons ul rows ih =>
    cases srcs with
    | nil => simp [callsUid]
    | cons s srcs =>
      have ih1 := ih srcs (fun row hr => h row (List.mem_cons_of_mem _ hr))
      have hul := h ul (List.mem_cons_self _ _)
      simp only [callsUid, List.map_append, List.map_map]
      cases ul with
      | nil => exact ih1.cons s
      | cons a ul =>
        cases ul with
        | nil => exact ih1.cons₂ s
        | cons b ul => simp at hul

theorem callsOf_attr {TV : Type} (convertTo : TV → Except String Val) (child : SubGraph TV) :
    ∀ c ∈ callsOf convertTo child, c.1 = child.Attr := by
  intro c hc
  unfold callsOf at hc
  split at hc
  · exact (callsUid_attr _ _ _ c hc).1
  · exact callsValue_attr _ _ _ _ c hc

theorem callsOf_entities {TV : Type} (convertTo : TV → Except String Val) (child : SubGraph TV)
    (hone : child.DestUIDs.length ≠ 0 → ∀ row ∈ child.uidMatrix, row.length ≤ 1) :
    ((callsOf convertTo child).map (fun c => c.2.2)).Sublist child.SrcUIDs := by
  unfold callsOf
  split
  · rename_i hd
    exact callsUid_entities _ _ _ (hone hd)
  · exact callsValue_entities _ _ _ _

theorem map_pair_eq (attr : String) (calls : List (String × Val × Nat))
    (h : ∀ c ∈ calls, c.1 = attr) :
    calls.map (fun c => (c.1, c.2.2)) = (calls.map (fun c => c.2.2)).map (fun x => (attr, x)) := by
  rw [List.map_map]
  apply List.map_congr_left
  intro c hc
  simp [h c hc]

theorem callsOf_pairs_nodup {TV : Type} (convertTo : TV → Except String Val)
    (child : SubGraph TV) (hsrc : child.SrcUIDs.Nodup)
    (hone : child.DestUIDs.length ≠ 0 → ∀ row ∈ child.uidMatrix, row.length ≤ 1) :
    ((callsOf convertTo child).map (fun c => (c.1, c.2.2))).Nodup := by
  rw [map_pair_eq child.Attr _ (callsOf_attr convertTo child)]
  apply List.Nodup.map
  · intro x y hxy
    exact (Prod.mk.inj hxy).2
  · exact (callsOf_entities convertTo child hone).nodup hsrc

theorem pairs_nodup {TV : Type} (convertTo : TV → Except String Val) (G : List (SubGraph TV))
    (hsrc : ∀ c ∈ G, c.SrcUIDs.Nodup)
    (hone : ∀ c ∈ G, c.DestUIDs.length ≠ 0 → ∀ row ∈ c.uidMatrix, row.length ≤ 1)
    (hattr : (G.map (fun c => c.Attr)).Nodup) :
    ((G.flatMap (callsOf convertTo)).map (fun c => (c.1, c.2.2))).Nodup := by
  rw [List.map_flatMap, List.nodup_flatMap]
  constructor
  · intro c hc
    exact callsOf_pairs_nodup convertTo c (hsrc c hc) (hone c hc)
  · have hpw : List.Pairwise (fun a b : SubGraph TV => a.Attr ≠ b.Attr) G := by
      have := hattr
      rw [List.Nodup, List.pairwise_map] at this
      exact this
    refine hpw.imp ?_
    intro a b hab p hpa hpb
    obtain ⟨ca, hca, rfl⟩ := List.mem_map.1 hpa
    obtain ⟨cb, hcb, heq⟩ := List.mem_map.1 hpb
    have h1 := callsOf_attr convertTo a ca hca
    have h2 := callsOf_attr convertTo b cb hcb
    have h3 : cb.1 = ca.1 := (Prod.mk.inj heq).1
    exact hab (h1.symm.trans (h3.symm.trans h2))

/-- C11, refuted as stated: for the identifier-valued child whose single parent 1
refers to the entities 10 and 11, the parent occurs once in the parent list and
the one group formed has the member list 1, 1. -/
theorem uid_child_repeats_member :
    ∃ d res, processGroupBy.index sampleConvertTo sampleMarshal [twoFriendsChild] = some d ∧
      formGroups d [] [] [] = some res ∧ twoFriendsChild.SrcUIDs.Nodup ∧
      ¬ (∀ g ∈ res, g.uids.Nodup) :=
  ⟨_, _, rfl, rfl, by decide, by decide⟩

/-- C11, amended: when the grouping children have distinct attributes and
parallel lists, each parent entity occurs once in the parent list of each
grouping child, and every parent of an identifier-valued child has at most one
related identifier, no group formed from the index built by `processGroupBy`
contains the same identifier twice. -/
theorem groups_members_nodup {TV : Type} (convertTo : TV → Except String Val)
    (Marshal : Val → Option String) (Children : List (SubGraph TV))
    (hp : ∀ c ∈ Children.filter (fun c => c.Params.ignoreResult), parallel c)
    (hsrc : ∀ c ∈ Children.filter (fun c => c.Params.ignoreResult), c.SrcUIDs.Nodup)
    (hone : ∀ c ∈ Children.filter (fun c => c.Params.ignoreResult),
      c.DestUIDs.length ≠ 0 → ∀ row ∈ c.uidMatrix, row.length ≤ 1)
    (hattr : ((Children.filter (fun c => c.Params.ignoreResult)).map (fun c => c.Attr)).Nodup) :
    ∃ d res, processGroupBy.index convertTo Marshal Children = some d ∧
      formGroups d [] [] [] = some res ∧ ∀ g ∈ res, g.uids.Nodup := by
  refine ⟨_, _, index_eq convertTo Marshal Children hp, formGroups_start _, ?_⟩
  have hclean := cleanIndex_addValues Marshal
    ((Children.filter (fun c => c.Params.ignoreResult)).flatMap (callsOf convertTo))
    { groups := [] } [] (by intro u hu; simp at hu)
    (by simpa using pairs_nodup convertTo _ hsrc hone hattr)
  exact groups_nodup_of_clean _ _ hclean

/-- Witness of the amended C11: grouping by the value attribute color and by the
identifier-valued attribute friend, each parent having one related
identifier. -/
theorem groups_members_nodup_witness :
    ∃ d res, processGroupBy.index sampleConvertTo sampleMarshal [colorChild, friendChild] =
        some d ∧
      formGroups d [] [] [] = some res ∧ ∀ g ∈ res, g.uids.Nodup :=
  groups_members_nodup sampleConvertTo sampleMarshal [colorChild, friendChild]
    (by
      intro c hc
      simp only [List.filter, colorChild, friendChild, List.mem_cons, List.mem_singleton,
        List.not_mem_nil, or_false] at hc
      rcases hc with rfl | rfl <;> decide)
    (by
      intro c hc
      simp only [List.filter, colorChild, friendChild, List.mem_cons, List.mem_singleton,
        List.not_mem_nil, or_false] at hc
      rcases hc with rfl | rfl <;> decide)
    (by
      intro c hc
      simp only [List.filter, colorChild, friendChild, List.mem_cons, List.mem_singleton,
        List.not_mem_nil, or_false] at hc
      rcases hc with rfl | rfl <;> decide)
    (by decide)

end GroupBy
